import Mathlib

/-!
Shallow embedding of `src/full_table_generator.py` (report layout engine).

Modelling notes:
* A standardized dataframe row is a `Record` (类型/图案/颜色/规格/数量), with the
  quantity already coerced to an integer as `DataStandardizer.standardize` does.
* pandas `groupby` iterates groups in sorted key order and `.unique()` keeps the
  first occurrence; `sorted` over strings compares by code points, which matches
  `String`'s lexicographic order, and Python's sorts are stable, which matches
  the stable insertion sort `sortLe` below.
* `float(x)` is modelled by `pyFloat?`, a decimal-literal parser (optional sign,
  integer part, optional fractional part) returning the exact value as a scaled
  integer; exponent forms are outside the scope of the size strings handled
  here, and the exact ordering coincides with the float ordering on them.
* The openpyxl worksheet is modelled as the list of cell writes the generator
  performs, in program order: value writes and border writes.  Fill, font,
  alignment, row heights, column widths and page setup are presentation
  attributes not referenced by any claim and are not recorded.  `merge_cells`
  does not assign any per-cell style in openpyxl, so it produces no write.
* The layout functions additionally return the block placements they perform
  (which table was anchored at which row/column); this is bookkeeping output
  mirroring the calls made, added so placement claims can be stated.
-/

set_option maxRecDepth 4000
set_option linter.unreachableTactic false
set_option linter.unusedTactic false
set_option linter.unnecessarySimpa false

/-- One standardized input record: the five required fields of a dataframe row
(类型, 图案, 颜色, 规格, 数量), quantity already coerced to an integer. -/
structure Record where
  type : String
  pattern : String
  color : String
  size : String
  qty : Int
deriving DecidableEq, Repr

/-- pandas `Series.unique()`: distinct values in first-occurrence order. -/
def dedupFirst (l : List String) : List String :=
  l.foldl (fun acc x => if acc.contains x then acc else acc ++ [x]) []

/-- Stable insertion sort by a boolean "less or equal" comparator; on distinct
or tie-stable inputs this computes the same list as Python's stable `sorted`. -/
def insertLe {α : Type} (le : α → α → Bool) (x : α) : List α → List α
  | [] => [x]
  | y :: ys => if le x y then x :: y :: ys else y :: insertLe le x ys

/-- Stable sort driver for `insertLe`. -/
def sortLe {α : Type} (le : α → α → Bool) : List α → List α
  | [] => []
  | x :: xs => insertLe le x (sortLe le xs)

/-- Python string `<` on the underlying code points (lexicographic). -/
def charListLt : List Char → List Char → Bool
  | [], [] => false
  | [], _ :: _ => true
  | _ :: _, [] => false
  | a :: as, b :: bs =>
      a.toNat < b.toNat || (a.toNat == b.toNat && charListLt as bs)

/-- Python string `<`. -/
def pyStrLt (a b : String) : Bool := charListLt a.data b.data

/-- Python string `<=` (code-point lexicographic). -/
def strLe (a b : String) : Bool := !(pyStrLt b a)

/-- `sorted(series.unique())` as used throughout the generator. -/
def uniqueSorted (l : List String) : List String := sortLe strLe (dedupFirst l)

/-- Value of a digit string (helper for `pyFloat?`). -/
def digitsToNat (l : List Char) : Nat :=
  l.foldl (fun n c => n * 10 + (c.toNat - 48)) 0

/-- Python `float(s)` on plain decimal literals: optional sign, digits,
optional '.' and fraction digits; anything else fails (raises `ValueError` in
Python).  The value is kept exactly as a scaled integer `(num, scale)` meaning
`num / 10 ^ scale`, which orders the same way the parsed numbers do. -/
def pyFloat? (s : String) : Option (Int × Nat) :=
  let sgncs : Int × List Char :=
    match s.data with
    | '+' :: r => (1, r)
    | '-' :: r => (-1, r)
    | cs => (1, cs)
  let sgn := sgncs.1
  let cs := sgncs.2
  let ip := cs.takeWhile Char.isDigit
  let rest := cs.dropWhile Char.isDigit
  match rest with
  | [] => if ip.isEmpty then none else some (sgn * (digitsToNat ip : Int), 0)
  | '.' :: fp =>
      if fp.all Char.isDigit && !(ip.isEmpty && fp.isEmpty) then
        some (sgn * ((digitsToNat ip : Int) * (10 : Int) ^ fp.length + (digitsToNat fp : Int)),
              fp.length)
      else none
  | _ => none

/-- Numeric key used by `_sort_specs` (`key=lambda x: float(x)`); only ever
applied when every element parses. -/
def numKey (s : String) : Int × Nat := (pyFloat? s).getD (0, 0)

/-- Order on scaled integers: `a.1 / 10^a.2 ≤ b.1 / 10^b.2` by
cross-multiplication. -/
def decLe (a b : Int × Nat) : Bool := a.1 * (10 : Int) ^ b.2 ≤ b.1 * (10 : Int) ^ a.2

/-- `CompleteTableGenerator._sort_specs`: sort numerically when every spec
parses as a float (Python computes all keys first, so one failure anywhere
raises and falls back), else sort lexicographically. -/
def sortSpecs (specs : List String) : List String :=
  if specs.all (fun s => (pyFloat? s).isSome) then
    sortLe (fun a b => decLe (numKey a) (numKey b)) specs
  else
    sortLe strLe specs

/-- A spreadsheet cell value: a string (labels, headers, `=SUM(...)` formula
text, `""` padding) or an integer quantity. -/
inductive Cell where
  | s (v : String)
  | n (v : Int)
deriving DecidableEq, Repr

/-- `group[group["颜色"]==color][group["规格"]==spec]["数量"].sum()`: summed
quantity of one (color, size) cell. -/
def colQty (g : List Record) (color spec : String) : Int :=
  (g.filter (fun r => r.color == color && r.size == spec)).foldl (fun a r => a + r.qty) 0

/-- Generator constant `min_columns`. -/
def minColumns : Nat := 6
/-- Generator constant `max_columns`. -/
def maxColumns : Nat := 10
/-- Generator constant `left_start_col`. -/
def leftStartCol : Nat := 1
/-- Generator constant `right_start_col`. -/
def rightStartCol : Nat := 12
/-- Generator constant `block_spacing`. -/
def blockSpacing : Nat := 2

/-- One per-type summary table as assembled by `_calculate_type_aggregation`. -/
structure TypeTable where
  title : String
  headers : List String
  data : List (List Cell)
  specs : List String
  total_cols : Nat
  data_rows : Nat
  total_col_idx : Nat
deriving DecidableEq, Repr

/-- One data row of a summary table: the color label, one summed quantity per
spec, the row total (sum of those quantities), padded with `""` to the header
length. -/
def typeRow (g : List Record) (specs : List String) (headerLen : Nat)
    (color : String) : List Cell :=
  let qtys := specs.map (fun sp => colQty g color sp)
  let row := Cell.s color :: (qtys.map Cell.n ++ [Cell.n (qtys.foldl (· + ·) 0)])
  row ++ List.replicate (headerLen - row.length) (Cell.s "")

/-- `_calculate_type_aggregation`, one group: headers are
`["颜色"] + sorted_specs + ["行合计"]` padded with `""` up to `min_columns`
(never truncated), the data matrix has one row per sorted distinct color. -/
def calcTypeTable (date tname : String) (g : List Record) : TypeTable :=
  let colors := uniqueSorted (g.map (·.color))
  let rawSpecs := uniqueSorted (g.map (·.size))
  let specs := sortSpecs rawSpecs
  let base := "颜色" :: (specs ++ ["行合计"])
  let headers :=
    if base.length < minColumns then base ++ List.replicate (minColumns - base.length) ""
    else base
  { title := tname ++ " - " ++ date
    headers := headers
    data := colors.map (typeRow g specs headers.length)
    specs := specs
    total_cols := headers.length
    data_rows := colors.length
    total_col_idx := specs.length + 2 }

/-- `_calculate_type_aggregation`: one `TypeTable` per distinct 类型, in sorted
group-key order (pandas `groupby` sorts keys). -/
def calcTypeAggregation (recs : List Record) (date : String) :
    List (String × TypeTable) :=
  (uniqueSorted (recs.map (·.type))).map
    (fun tn => (tn, calcTypeTable date tn (recs.filter (fun r => r.type == tn))))

/-- One per-pattern detail table as assembled by
`_get_pattern_table_structure`.  `specs` records the function's local
`sorted_specs` list (the dict itself only stores its length as
`spec_count`); it is kept here so ordering claims can be stated. -/
structure PatternStruct where
  headers : List String
  data : List (List Cell)
  row_count : Nat
  total_cols : Nat
  spec_count : Nat
  total_col_idx : Nat
  specs : List String
deriving DecidableEq, Repr

/-- `headers[-1] = v` on a Python list. -/
def setLast : List String → String → List String
  | [], _ => []
  | [_], v => [v]
  | x :: xs, v => x :: setLast xs v

/-- One data row of a detail table: built like `typeRow` (label, quantities,
row total), then `row[:total_cols]` and `""`-padding to `total_cols`. -/
def patternRow (g : List Record) (specs : List String) (totalCols : Nat)
    (color : String) : List Cell :=
  let qtys := specs.map (fun sp => colQty g color sp)
  let row := Cell.s color :: (qtys.map Cell.n ++ [Cell.n (qtys.foldl (· + ·) 0)])
  row.take totalCols ++ List.replicate (totalCols - row.length) (Cell.s "")

/-- `_get_pattern_table_structure`: note the specs here are plain
`sorted(unique)` (lexicographic), not `_sort_specs`; headers are padded up to
`min_columns` or cut at `max_columns` with the last kept header relabelled
"行合计"; `total_col_idx` is clamped to `total_cols`. -/
def getPatternTableStructure (g : List Record) : PatternStruct :=
  let colors := uniqueSorted (g.map (·.color))
  let specs := uniqueSorted (g.map (·.size))
  let base := "颜色" :: (specs ++ ["行合计"])
  let bc := base.length
  let tc_hdrs :=
    if bc < minColumns then (minColumns, base ++ List.replicate (minColumns - bc) "")
    else if bc > maxColumns then (maxColumns, setLast (base.take maxColumns) "行合计")
    else (bc, base)
  let totalCols := tc_hdrs.1
  let tci0 := specs.length + 2
  { headers := tc_hdrs.2
    data := colors.map (patternRow g specs totalCols)
    row_count := colors.length
    total_cols := totalCols
    spec_count := specs.length
    total_col_idx := if tci0 > totalCols then totalCols else tci0
    specs := specs }

/-- Border style written to a cell: the full four-side thin `block_border` or
the explicit `no_border`. -/
inductive BSty where
  | full
  | blank
deriving DecidableEq, Repr

/-- One cell write performed on a worksheet: a value assignment or a border
assignment. -/
inductive Wr where
  | val (r c : Nat) (v : Cell)
  | bor (r c : Nat) (b : BSty)
deriving DecidableEq, Repr

/-- Fold step for `borderAt`: a later border write to the same cell wins. -/
def borStep (r c : Nat) (acc : BSty) (w : Wr) : BSty :=
  match w with
  | Wr.bor r' c' b => if r' == r && c' == c then b else acc
  | _ => acc

/-- Final border of a cell: the last border written there, or no border at all
(openpyxl's default) when none was ever written. -/
def borderAt (ws : List Wr) (r c : Nat) : BSty :=
  ws.foldl (borStep r c) BSty.blank

/-- Fold step for `valAt`: a later value write to the same cell wins. -/
def valStep (r c : Nat) (acc : Option Cell) (w : Wr) : Option Cell :=
  match w with
  | Wr.val r' c' v => if r' == r && c' == c then some v else acc
  | _ => acc

/-- Final value of a cell: the last value written there, if any. -/
def valAt (ws : List Wr) (r c : Nat) : Option Cell :=
  ws.foldl (valStep r c) none

/-- Semantics of a column `=SUM` formula: sum of the numeric cell values of
column `c` over rows `r1..r2` (non-numeric and absent cells count 0). -/
def evalSum (ws : List Wr) (c r1 r2 : Nat) : Int :=
  (List.range' r1 (r2 + 1 - r1)).foldl
    (fun a r =>
      a + (match valAt ws r c with
           | some (Cell.n v) => v
           | _ => 0))
    0

/-- Fuel-driven core of `get_column_letter`. -/
def colLetterAux : Nat → Nat → String
  | 0, _ => ""
  | _, 0 => ""
  | fuel + 1, n + 1 => colLetterAux fuel (n / 26) ++ String.singleton (Char.ofNat (65 + n % 26))

/-- openpyxl's `get_column_letter`: bijective base-26 column name (1 → "A",
27 → "AA"). -/
def getColumnLetter (n : Nat) : String := colLetterAux n n

/-- The `f"=SUM({L}{data_start}:{L}{data_end})"` formula text. -/
def sumFormula (col ds de : Nat) : String :=
  "=SUM(" ++ getColumnLetter col ++ toString ds ++ ":" ++ getColumnLetter col ++ toString de ++ ")"

/-- A run of cells on one row: for each column `c0 ≤ c < c0 + n`, write value
`f c` then a border `b` (the per-cell body of the generator's column loops). -/
def rowSeg (row c0 n : Nat) (f : Nat → Cell) (b : BSty) : List Wr :=
  (List.range' c0 n).flatMap (fun c => [Wr.val row c (f c), Wr.bor row c b])

/-- A run of border-only writes on one row (loops that touch no value). -/
def borRowSeg (row c0 n : Nat) (b : BSty) : List Wr :=
  (List.range' c0 n).map (fun c => Wr.bor row c b)

/-- The data-row loop: row `i` of the matrix is written on sheet row `ds + i`,
columns `c0 ≤ c < c0 + w`, reading `data_row[c - c0]` (with the generator's
`""` out-of-range guard) and the full border. -/
def dataSeg (ds c0 w : Nat) : List (List Cell) → List Wr
  | [] => []
  | row :: rest =>
      rowSeg ds c0 w (fun c => row.getD (c - c0) (Cell.s "")) BSty.full ++
        dataSeg (ds + 1) c0 w rest

/-- The per-block body of `_generate_original_type_sheet`: title cell (the
merged title row styles only its anchor cell), header row, data rows, total row
(label, per-spec `=SUM` formulas, grand `=SUM`, bordered filler cells), then
the explicit no-border spacer rows `range(total_row+1, total_row+spacing)`. -/
def renderTypeBlock (t : TypeTable) (a : Nat) : List Wr :=
  let headerRow := a + 1
  let dataStart := headerRow + 1
  let dataEnd := dataStart + t.data_rows - 1
  let totalRow := dataEnd + 1
  [Wr.val a 1 (Cell.s t.title), Wr.bor a 1 BSty.full]
  ++ rowSeg headerRow 1 t.total_cols (fun c => Cell.s (t.headers.getD (c - 1) "")) BSty.full
  ++ dataSeg dataStart 1 t.total_cols t.data
  ++ [Wr.val totalRow 1 (Cell.s "合计"), Wr.bor totalRow 1 BSty.full]
  ++ rowSeg totalRow 2 t.specs.length (fun c => Cell.s (sumFormula c dataStart dataEnd)) BSty.full
  ++ [Wr.val totalRow t.total_col_idx (Cell.s (sumFormula t.total_col_idx dataStart dataEnd)),
      Wr.bor totalRow t.total_col_idx BSty.full]
  ++ (List.range' 1 t.total_cols).filterMap (fun ci =>
        if ci = 1 ∨ (2 ≤ ci ∧ ci ≤ 1 + t.specs.length) ∨ ci = t.total_col_idx then none
        else some (Wr.bor totalRow ci BSty.full))
  ++ (List.range' (totalRow + 1) (blockSpacing - 1)).flatMap
       (fun r => borRowSeg r 1 t.total_cols BSty.blank)

/-- Last row (total row) of a summary block anchored at `a`:
`a + data_rows + 2`. -/
def typeBlockEnd (t : TypeTable) (a : Nat) : Nat :=
  a + t.data_rows + 2

/-- The stacking loop of `_generate_original_type_sheet` over the desc-sorted
tables: each block at column 1, the next anchor at `end + block_spacing`.
Also returns the (table, anchor-row) placements performed. -/
def genTypeSheet : List TypeTable → Nat → List Wr × List (TypeTable × Nat)
  | [], _ => ([], [])
  | t :: rest, cur =>
      let e := typeBlockEnd t cur
      let rec_ := genTypeSheet rest (e + blockSpacing)
      (renderTypeBlock t cur ++ rec_.1, (t, cur) :: rec_.2)

/-- `_generate_original_type_sheet`: sort the per-type tables by `total_cols`
descending (Python's stable sort) and stack them from row 1. -/
def generateOriginalTypeSheet (tables : List (String × TypeTable)) :
    List Wr × List (TypeTable × Nat) :=
  let sortedTypes := sortLe (fun a b => decide (b.2.total_cols ≤ a.2.total_cols)) tables
  genTypeSheet (sortedTypes.map (·.2)) 1

/-- `_generate_single_pattern_block`: title cell (merged row, anchor cell
styled), header row, data rows, total row (label, spec `=SUM` formulas,
clamped grand `=SUM`, bordered filler cells).  Returns the writes and the
block's end row `total_row`.  Loop translations: the spec-formula loop over
`range(spec_count)` breaks once `col > col_end`, so it writes exactly the
columns `start_col+1 .. start_col + min(spec_count, total_cols-1)` (the `min`
closed form below); the filler loop over `col_offset` is re-indexed to the
absolute column `cl = start_col + col_offset` (so `col_offset == 0` becomes
`cl = start_col`, and `col_offset + 1 == total_col_idx` becomes
`cl + 1 = start_col + total_col_idx`). -/
def generateSinglePatternBlock (title : String) (s : PatternStruct)
    (startRow startCol : Nat) : List Wr × Nat :=
  let colEnd := startCol + s.total_cols - 1
  let headerRow := startRow + 1
  let dataStart := headerRow + 1
  let dataEnd := dataStart + s.row_count - 1
  let totalRow := dataEnd + 1
  let totalCol := startCol + s.total_col_idx - 1
  let ws :=
    [Wr.val startRow startCol (Cell.s title), Wr.bor startRow startCol BSty.full]
    ++ rowSeg headerRow startCol s.total_cols
         (fun c => Cell.s (s.headers.getD (c - startCol) "")) BSty.full
    ++ dataSeg dataStart startCol s.total_cols s.data
    ++ [Wr.val totalRow startCol (Cell.s "合计"), Wr.bor totalRow startCol BSty.full]
    ++ rowSeg totalRow (startCol + 1) (min s.spec_count (s.total_cols - 1))
         (fun c => Cell.s (sumFormula c dataStart dataEnd)) BSty.full
    ++ (if totalCol ≤ colEnd then
          [Wr.val totalRow totalCol (Cell.s (sumFormula totalCol dataStart dataEnd)),
           Wr.bor totalRow totalCol BSty.full]
        else [])
    ++ (List.range' startCol s.total_cols).filterMap (fun cl =>
          if cl = startCol ∨ (startCol + 1 ≤ cl ∧ cl ≤ startCol + s.spec_count) ∨
              cl + 1 = startCol + s.total_col_idx then none
          else some (Wr.bor totalRow cl BSty.full))
  (ws, totalRow)

/-- `_format_blank_column`: no-border writes on `col_idx` over
`range(start_row, end_row + 1)`. -/
def formatBlankColumn (startRow endRow colIdx : Nat) : List Wr :=
  (List.range' startRow (endRow + 1 - startRow)).map (fun r => Wr.bor r colIdx BSty.blank)

/-- The end-of-pair cleanup of `_generate_type_pattern_sheet`: no-border writes
on rows `range(current_row - spacing, current_row)` (i.e. `m` and `m + 1` for
`m = max(left_end, right_end)`), columns strictly between the left block and
`right_start_col`. -/
def pairCleanup (lw m : Nat) : List Wr :=
  (List.range' m blockSpacing).flatMap (fun r =>
    borRowSeg r (leftStartCol + lw + 1) (rightStartCol - (leftStartCol + lw + 1)) BSty.blank)

/-- The non-block writes emitted after each pair: the spacer column
(`_format_blank_column` on the single row `m`) then the cleanup rows. -/
def pairExtra (lw m : Nat) : List Wr :=
  formatBlankColumn m m (leftStartCol + lw) ++ pairCleanup lw m

/-- A block placement on a detail sheet: (title, structure), anchor row,
anchor column. -/
abbrev Placement := (String × PatternStruct) × Nat × Nat

/-- The `for i in range(0, len(group), 2)` pair loop: element `2i` rendered at
the left anchor column, element `2i+1` (when present) at the right anchor
column on the same start row; the next start row is
`max(left_end, right_end) + block_spacing`.  Returns writes, the placements
performed, and the final `current_row`. -/
def packGroup : List (String × PatternStruct) → Nat →
    List Wr × List Placement × Nat
  | [], cur => ([], [], cur)
  | [p], cur =>
      let left := generateSinglePatternBlock p.1 p.2 cur leftStartCol
      (left.1 ++ pairExtra p.2.total_cols left.2,
       [(p, cur, leftStartCol)],
       left.2 + blockSpacing)
  | p :: q :: rest, cur =>
      let left := generateSinglePatternBlock p.1 p.2 cur leftStartCol
      let right := generateSinglePatternBlock q.1 q.2 cur rightStartCol
      let m := max left.2 right.2
      let rec_ := packGroup rest (m + blockSpacing)
      (left.1 ++ right.1 ++ pairExtra p.2.total_cols m ++ rec_.1,
       (p, cur, leftStartCol) :: (q, cur, rightStartCol) :: rec_.2.1,
       rec_.2.2)

/-- `_sort_patterns_by_columns(..., order="asc")`: stable sort by the computed
structure's `total_cols`, ascending. -/
def sortPatternsByColumns (ps : List (String × PatternStruct)) :
    List (String × PatternStruct) :=
  sortLe (fun a b => decide (a.2.total_cols ≤ b.2.total_cols)) ps

/-- `_group_by_column_range`: the `6-7` band then the catch-all band, dropping
empty bands. -/
def groupByColumnRange (ps : List (String × PatternStruct)) :
    List (List (String × PatternStruct)) :=
  let g67 := ps.filter (fun p => 6 ≤ p.2.total_cols && p.2.total_cols ≤ 7)
  let rest := ps.filter (fun p => !(6 ≤ p.2.total_cols && p.2.total_cols ≤ 7))
  [g67, rest].filter (fun g => !g.isEmpty)

/-- Fold of `packGroup` over the bands, threading `current_row`. -/
def packGroups : List (List (String × PatternStruct)) → Nat →
    List Wr × List Placement × Nat
  | [], cur => ([], [], cur)
  | g :: rest, cur =>
      let one := packGroup g cur
      let more := packGroups rest one.2.2
      (one.1 ++ more.1, one.2.1 ++ more.2.1, more.2.2)

/-- `_generate_type_pattern_sheet`: group this type's records by 图案 (sorted
keys), compute each pattern's structure, sort ascending by column count, band
by column range, and pack pairs from row 1.  The `f"{type} - {name} - {date}"`
titles are attached to each pattern.  Returns writes and placements. -/
def generateTypePatternSheet (typeName date : String) (g : List Record) :
    List Wr × List Placement :=
  let names := uniqueSorted (g.map (·.pattern))
  let withStructs := names.map
    (fun n => (n, getPatternTableStructure (g.filter (fun r => r.pattern == n))))
  let sortedP := sortPatternsByColumns withStructs
  let bands := groupByColumnRange sortedP
  let titled := bands.map (List.map
    (fun p => (typeName ++ " - " ++ p.1 ++ " - " ++ date, p.2)))
  let packed := packGroups titled 1
  (packed.1, packed.2.1)

/-- The field alias table of `DataStandardizer`. -/
def fieldMapping : List (String × List String) :=
  [("类型", ["类型", "宝贝类型", "商品信息", "产品类型"]),
   ("图案", ["图案", "图案名称", "花纹", "印花"]),
   ("颜色", ["颜色", "色彩", "色系"]),
   ("规格", ["规格", "尺寸", "尺码"]),
   ("数量", ["数量", "件数", "总数", "库存"])]

/-- Python `str.lower()` on the characters (sufficient for the ASCII/CJK
column names in scope; `String.map` itself is not kernel-reducible). -/
def pyLower (s : String) : String := ⟨s.data.map Char.toLower⟩

/-- `alias.lower() in [col.lower() for col in df.columns]` for some alias. -/
def fieldMatched (cols : List String) (aliases : List String) : Bool :=
  aliases.any (fun al => cols.any (fun c => pyLower c == pyLower al))

/-- The standardization loop: the first standard field none of whose aliases
matches a dataframe column, if any. -/
def firstMissingField (cols : List String) :
    List (String × List String) → Option (String × List String)
  | [] => none
  | (std, aliases) :: rest =>
      if fieldMatched cols aliases then firstMissingField cols rest
      else some (std, aliases)

/-- A raw dataframe: its column names plus its rows (already projected to the
five standard fields, quantity coerced, as `standardize` leaves them). -/
structure PyDF where
  cols : List String
  recs : List Record

/-- `DataStandardizer.standardize` after the file read: raises `ValueError`
(here `Except.error`) as soon as a required field has no matching column,
otherwise hands the renamed records on. -/
def standardize (df : PyDF) : Except String (List Record) :=
  match firstMissingField df.cols fieldMapping with
  | some (std, aliases) =>
      Except.error ("数据源缺少必要字段 '" ++ std ++ "'，允许的别名包括：" ++
        String.intercalate ", " aliases)
  | none => Except.ok df.recs

/-- The in-memory document: the summary sheet (writes and block placements)
and one detail sheet per 类型. -/
structure Workbook where
  summary : List Wr
  summaryBlocks : List (TypeTable × Nat)
  details : List (String × (List Wr × List Placement))

/-- The layout part of `CompleteTableGenerator.generate`, after
standardization succeeded. -/
def buildWorkbook (recs : List Record) (date : String) : Workbook :=
  let agg := calcTypeAggregation recs date
  let summarySheet := generateOriginalTypeSheet agg
  { summary := summarySheet.1
    summaryBlocks := summarySheet.2
    details := (uniqueSorted (recs.map (·.type))).map
      (fun tn => (tn, generateTypePatternSheet tn date (recs.filter (fun r => r.type == tn)))) }

/-- `CompleteTableGenerator.generate`: standardize first; any standardization
error aborts the run before any aggregation or layout happens. -/
def generate (df : PyDF) (date : String) : Except String Workbook :=
  match standardize df with
  | Except.error e => Except.error e
  | Except.ok recs => Except.ok (buildWorkbook recs date)

/-- Adjacent-pair comparison: `true` when every neighbouring pair of the list
satisfies the comparator (the list is sorted for it). -/
def chainB {α : Type} (le : α → α → Bool) : List α → Bool
  | [] => true
  | [_] => true
  | x :: y :: r => le x y && chainB le (y :: r)

/-- Row of a write. -/
def wrRow : Wr → Nat
  | Wr.val r _ _ => r
  | Wr.bor r _ _ => r

/-- Column of a write. -/
def wrCol : Wr → Nat
  | Wr.val _ c _ => c
  | Wr.bor _ c _ => c

/-- Is this a border write aimed at cell `(r, c)`? -/
def isBorAt (r c : Nat) : Wr → Bool
  | Wr.bor r' c' _ => r' == r && c' == c
  | _ => false

/-- Is this a value write aimed at cell `(r, c)`? -/
def isValAt (r c : Nat) : Wr → Bool
  | Wr.val r' c' _ => r' == r && c' == c
  | _ => false

/-- Does the write carry ink that belongs inside a block (a value or a full
border), as opposed to the explicit spacer no-border writes? -/
def isInk : Wr → Bool
  | Wr.val _ _ _ => true
  | Wr.bor _ _ BSty.full => true
  | Wr.bor _ _ BSty.blank => false

/-- A sheet row some write of `ws` inks. -/
def rowInked (ws : List Wr) (r : Nat) : Bool :=
  ws.any (fun w => isInk w && wrRow w == r)

/-- Claim-side description of the detail-sheet pair packing (C5's wording):
element `2i` at the left anchor, element `2i+1` (when present) at the right
anchor with the same starting row, next pair at
`max(leftBlockEndRow, rightBlockEndRow) + spacing`, and an odd band leaves the
last right slot empty with no placeholder. -/
def claimPairLayout : List (String × PatternStruct) → Nat → List Placement
  | [], _ => []
  | [p], cur => [(p, cur, leftStartCol)]
  | p :: q :: rest, cur =>
      (p, cur, leftStartCol) :: (q, cur, rightStartCol) ::
        claimPairLayout rest
          (max (generateSinglePatternBlock p.1 p.2 cur leftStartCol).2
               (generateSinglePatternBlock q.1 q.2 cur rightStartCol).2 + blockSpacing)

/-- Claim-side description of the summary-sheet stacking (C8's wording): blocks
top to bottom, each next anchor at the previous block's end row plus the fixed
spacing. -/
def claimStackLayout : List TypeTable → Nat → List (TypeTable × Nat)
  | [], _ => []
  | t :: rest, cur => (t, cur) :: claimStackLayout rest (typeBlockEnd t cur + blockSpacing)

/-- The rectangle of a summary block anchored at row `a`: title row through
total row, columns 1 through `total_cols`. -/
def inRectT (t : TypeTable) (a r c : Nat) : Prop :=
  a ≤ r ∧ r ≤ typeBlockEnd t a ∧ 1 ≤ c ∧ c ≤ t.total_cols

instance (t : TypeTable) (a r c : Nat) : Decidable (inRectT t a r c) := by
  unfold inRectT; infer_instance

/-- A summary-sheet cell that must carry the full border: inside some placed
block's rectangle but not a non-anchor cell of the merged title row. -/
def goodCellT (pl : List (TypeTable × Nat)) (r c : Nat) : Prop :=
  ∃ p ∈ pl, inRectT p.1 p.2 r c ∧ ¬(r = p.2 ∧ c ≠ 1)

instance (pl : List (TypeTable × Nat)) (r c : Nat) : Decidable (goodCellT pl r c) := by
  unfold goodCellT; infer_instance

/-- End row of a placed detail block (title + header + data rows + total). -/
def patternBlockEnd (s : PatternStruct) (a : Nat) : Nat :=
  a + s.row_count + 2

/-- The rectangle of a detail block anchored at `(a, c0)`. -/
def inRectP (s : PatternStruct) (a c0 r c : Nat) : Prop :=
  a ≤ r ∧ r ≤ patternBlockEnd s a ∧ c0 ≤ c ∧ c ≤ c0 + s.total_cols - 1

instance (s : PatternStruct) (a c0 r c : Nat) : Decidable (inRectP s a c0 r c) := by
  unfold inRectP; infer_instance

/-- A detail-sheet cell that must carry the full border: inside some placed
block's rectangle but not a non-anchor cell of the merged title row. -/
def goodCellP (pl : List Placement) (r c : Nat) : Prop :=
  ∃ p ∈ pl, inRectP p.1.2 p.2.1 p.2.2 r c ∧ ¬(r = p.2.1 ∧ c ≠ p.2.2)

instance (pl : List Placement) (r c : Nat) : Decidable (goodCellP pl r c) := by
  unfold goodCellP; infer_instance

/-- Two cell rectangles, given as (top, bottom, left, right), do not share a
cell. -/
def rectDisjoint (x y : Nat × Nat × Nat × Nat) : Prop :=
  x.2.1 < y.1 ∨ y.2.1 < x.1 ∨ x.2.2.2 < y.2.2.1 ∨ y.2.2.2 < x.2.2.1

/-- Rectangle of a placed summary block. -/
def rectOfT (p : TypeTable × Nat) : Nat × Nat × Nat × Nat :=
  (p.2, typeBlockEnd p.1 p.2, 1, p.1.total_cols)

/-- Rectangle of a placed detail block. -/
def rectOfP (p : Placement) : Nat × Nat × Nat × Nat :=
  (p.2.1, patternBlockEnd p.1.2 p.2.1, p.2.2, p.2.2 + p.1.2.total_cols - 1)

/-- Scenario input of C3: three records of one type, two colors, two sizes. -/
def exRecsSmall : List Record :=
  [⟨"A", "P", "Red", "S", 3⟩, ⟨"A", "P", "Red", "M", 5⟩, ⟨"A", "P", "Blue", "S", 2⟩]

/-- Scenario input of C1/C2: one type, one pattern, one color, nine distinct
sizes s1 < ... < s9 with quantities 1..9. -/
def exRecsNine : List Record :=
  (List.range 9).map (fun i => ⟨"A", "P", "C", "s" ++ toString (i + 1), (i : Int) + 1⟩)

/-- Counterexample input of C4: two sizes that all parse numerically but whose
lexicographic and numeric orders differ. -/
def exRecsNum : List Record :=
  [⟨"A", "P", "C", "10", 1⟩, ⟨"A", "P", "C", "2", 1⟩]

/-- Minimal input: a single record. -/
def exRecsOne : List Record := [⟨"A", "P", "C", "S", 1⟩]

/-- A dataframe whose columns miss every 规格 alias. -/
def exDfNoSize : PyDF :=
  { cols := ["类型", "图案", "颜色", "数量"], recs := [] }

/-- Shape invariants every `calcTypeTable` result satisfies (used to chain the
per-block and per-sheet lemmas). -/
def TypePhi (t : TypeTable) : Prop :=
  t.headers.length = t.total_cols ∧
  t.data.length = t.data_rows ∧
  t.total_col_idx = t.specs.length + 2 ∧
  t.total_cols = max minColumns (t.specs.length + 2) ∧
  ∀ row ∈ t.data, row.length = t.total_cols

/-- Shape invariants every `getPatternTableStructure` result satisfies. -/
def PatternPhi (s : PatternStruct) : Prop :=
  s.headers.length = s.total_cols ∧
  s.data.length = s.row_count ∧
  s.spec_count = s.specs.length ∧
  s.total_col_idx = min (s.spec_count + 2) s.total_cols ∧
  s.total_cols = min maxColumns (max minColumns (s.spec_count + 2)) ∧
  ∀ row ∈ s.data, row.length = s.total_cols

/-- The summary sheet generated from the C3 scenario records. -/
def exSmallSheet : List Wr :=
  (generateOriginalTypeSheet (calcTypeAggregation exRecsSmall "某日")).1

/-- The summary sheet generated from the single-record input. -/
def exOneSheet : List Wr :=
  (generateOriginalTypeSheet (calcTypeAggregation exRecsOne "某日")).1

/-- Claim-side final cursor of a band (C5's wording): after each pair the
cursor is `max(leftEnd, rightEnd) + spacing`; an odd band advances past its
single left block the same way. -/
def claimPairEnd : List (String × PatternStruct) → Nat → Nat
  | [], cur => cur
  | [p], cur => (generateSinglePatternBlock p.1 p.2 cur leftStartCol).2 + blockSpacing
  | p :: q :: rest, cur =>
      claimPairEnd rest
        (max (generateSinglePatternBlock p.1 p.2 cur leftStartCol).2
             (generateSinglePatternBlock q.1 q.2 cur rightStartCol).2 + blockSpacing)

/-- Claim-side layout of a whole detail sheet: bands in order, each packed by
`claimPairLayout`, the next band starting at the previous band's final
cursor. -/
def claimBandsLayout : List (List (String × PatternStruct)) → Nat → List Placement
  | [], _ => []
  | g :: rest, cur => claimPairLayout g cur ++ claimBandsLayout rest (claimPairEnd g cur)

/-- The banded, ascending-sorted, titled pattern list a detail sheet packs
(the intermediate value inside `generateTypePatternSheet`). -/
def titledBands (typeName date : String) (g : List Record) :
    List (List (String × PatternStruct)) :=
  ((groupByColumnRange (sortPatternsByColumns
      ((uniqueSorted (g.map (·.pattern))).map
        (fun n => (n, getPatternTableStructure (g.filter (fun r => r.pattern == n))))))).map
    (List.map (fun p => (typeName ++ " - " ++ p.1 ++ " - " ++ date, p.2))))

/-! ### Write-list query lemmas -/

theorem borStep_skip {r c : Nat} {w : Wr} (h : isBorAt r c w = false) (i : BSty) :
    borStep r c i w = i := by
  cases w with
  | val r' c' v => rfl
  | bor r' c' b => simp only [isBorAt] at h; simp [borStep, h]

theorem foldl_borStep_no {r c : Nat} {ws : List Wr}
    (h : ∀ w ∈ ws, isBorAt r c w = false) (i : BSty) :
    ws.foldl (borStep r c) i = i := by
  induction ws generalizing i with
  | nil => rfl
  | cons w ws ih =>
      rw [List.foldl_cons, borStep_skip (h w (by simp))]
      exact ih (fun w hw => h w (by simp [hw])) i

theorem foldl_borStep_indep {r c : Nat} {ws : List Wr}
    (h : ws.any (isBorAt r c) = true) (i j : BSty) :
    ws.foldl (borStep r c) i = ws.foldl (borStep r c) j := by
  induction ws generalizing i j with
  | nil => simp at h
  | cons w ws ih =>
      by_cases hw : isBorAt r c w = true
      · cases w with
        | val r' c' v => simp [isBorAt] at hw
        | bor r' c' b =>
            simp only [isBorAt] at hw
            simp [List.foldl_cons, borStep, hw]
      · simp only [List.any_cons, Bool.or_eq_true] at h
        rcases h with h | h
        · exact absurd h hw
        · rw [List.foldl_cons, List.foldl_cons]
          exact ih h _ _

theorem borderAt_append (w1 w2 : List Wr) (r c : Nat) :
    borderAt (w1 ++ w2) r c =
      if w2.any (isBorAt r c) = true then borderAt w2 r c else borderAt w1 r c := by
  unfold borderAt
  rw [List.foldl_append]
  split
  · exact foldl_borStep_indep (by assumption) _ _
  · rename_i h
    have h' : ∀ w ∈ w2, isBorAt r c w = false := by
      intro w hw
      by_contra hc
      exact h (List.any_eq_true.mpr ⟨w, hw, by simpa using hc⟩)
    exact foldl_borStep_no h' _

theorem borderAt_of_no_touch {r c : Nat} {ws : List Wr}
    (h : ∀ w ∈ ws, isBorAt r c w = false) :
    borderAt ws r c = BSty.blank :=
  foldl_borStep_no h _

theorem valStep_skip {r c : Nat} {w : Wr} (h : isValAt r c w = false) (i : Option Cell) :
    valStep r c i w = i := by
  cases w with
  | bor r' c' b => rfl
  | val r' c' v => simp only [isValAt] at h; simp [valStep, h]

theorem foldl_valStep_no {r c : Nat} {ws : List Wr}
    (h : ∀ w ∈ ws, isValAt r c w = false) (i : Option Cell) :
    ws.foldl (valStep r c) i = i := by
  induction ws generalizing i with
  | nil => rfl
  | cons w ws ih =>
      rw [List.foldl_cons, valStep_skip (h w (by simp))]
      exact ih (fun w hw => h w (by simp [hw])) i

theorem foldl_valStep_indep {r c : Nat} {ws : List Wr}
    (h : ws.any (isValAt r c) = true) (i j : Option Cell) :
    ws.foldl (valStep r c) i = ws.foldl (valStep r c) j := by
  induction ws generalizing i j with
  | nil => simp at h
  | cons w ws ih =>
      by_cases hw : isValAt r c w = true
      · cases w with
        | bor r' c' b => simp [isValAt] at hw
        | val r' c' v =>
            simp only [isValAt] at hw
            simp [List.foldl_cons, valStep, hw]
      · simp only [List.any_cons, Bool.or_eq_true] at h
        rcases h with h | h
        · exact absurd h hw
        · rw [List.foldl_cons, List.foldl_cons]
          exact ih h _ _

theorem valAt_append (w1 w2 : List Wr) (r c : Nat) :
    valAt (w1 ++ w2) r c =
      if w2.any (isValAt r c) = true then valAt w2 r c else valAt w1 r c := by
  unfold valAt
  rw [List.foldl_append]
  split
  · exact foldl_valStep_indep (by assumption) _ _
  · rename_i h
    have h' : ∀ w ∈ w2, isValAt r c w = false := by
      intro w hw
      by_contra hc
      exact h (List.any_eq_true.mpr ⟨w, hw, by simpa using hc⟩)
    exact foldl_valStep_no h' _

theorem valAt_of_no_touch {r c : Nat} {ws : List Wr}
    (h : ∀ w ∈ ws, isValAt r c w = false) :
    valAt ws r c = none :=
  foldl_valStep_no h _

theorem isBorAt_row {r c : Nat} {w : Wr} (h : isBorAt r c w = true) : wrRow w = r := by
  cases w with
  | val r' c' v => simp [isBorAt] at h
  | bor r' c' b => simp only [isBorAt, Bool.and_eq_true, beq_iff_eq] at h; simp [wrRow, h.1]

theorem isBorAt_col {r c : Nat} {w : Wr} (h : isBorAt r c w = true) : wrCol w = c := by
  cases w with
  | val r' c' v => simp [isBorAt] at h
  | bor r' c' b => simp only [isBorAt, Bool.and_eq_true, beq_iff_eq] at h; simp [wrCol, h.2]

theorem isValAt_row {r c : Nat} {w : Wr} (h : isValAt r c w = true) : wrRow w = r := by
  cases w with
  | bor r' c' b => simp [isValAt] at h
  | val r' c' v => simp only [isValAt, Bool.and_eq_true, beq_iff_eq] at h; simp [wrRow, h.1]

theorem isValAt_col {r c : Nat} {w : Wr} (h : isValAt r c w = true) : wrCol w = c := by
  cases w with
  | bor r' c' b => simp [isValAt] at h
  | val r' c' v => simp only [isValAt, Bool.and_eq_true, beq_iff_eq] at h; simp [wrCol, h.2]

theorem no_touch_of_row {r c : Nat} {ws : List Wr} (h : ∀ w ∈ ws, wrRow w ≠ r) :
    ∀ w ∈ ws, isBorAt r c w = false := by
  intro w hw
  by_contra hc
  exact h w hw (isBorAt_row (by simpa using hc))

theorem no_val_touch_of_row {r c : Nat} {ws : List Wr} (h : ∀ w ∈ ws, wrRow w ≠ r) :
    ∀ w ∈ ws, isValAt r c w = false := by
  intro w hw
  by_contra hc
  exact h w hw (isValAt_row (by simpa using hc))

/-! ### Segment characterizations -/

theorem rowSeg_zero (row c0 : Nat) (f : Nat → Cell) (b : BSty) :
    rowSeg row c0 0 f b = [] := rfl

theorem rowSeg_succ (row c0 n : Nat) (f : Nat → Cell) (b : BSty) :
    rowSeg row c0 (n + 1) f b =
      Wr.val row c0 (f c0) :: Wr.bor row c0 b :: rowSeg row (c0 + 1) n f b := by
  unfold rowSeg
  rw [List.range'_succ]
  rfl

theorem borderAt_pair (row c0 : Nat) (v : Cell) (b : BSty) (r c : Nat) :
    borderAt [Wr.val row c0 v, Wr.bor row c0 b] r c =
      if r = row ∧ c = c0 then b else BSty.blank := by
  show (if row == r && c0 == c then b else BSty.blank) = _
  by_cases h : r = row ∧ c = c0
  · rcases h with ⟨rfl, rfl⟩
    simp
  · have hb : (row == r && c0 == c) = false := by
      rw [Bool.and_eq_false_iff]
      rcases Decidable.not_and_iff_or_not.mp h with h1 | h1
      · exact Or.inl (beq_eq_false_iff_ne.mpr (fun e => h1 e.symm))
      · exact Or.inr (beq_eq_false_iff_ne.mpr (fun e => h1 e.symm))
    rw [hb, if_neg h]
    rfl

theorem any_pair_bor (row c0 : Nat) (v : Cell) (b : BSty) (r c : Nat) :
    ([Wr.val row c0 v, Wr.bor row c0 b].any (isBorAt r c) = true) ↔ r = row ∧ c = c0 := by
  simp [isBorAt]
  constructor
  · rintro ⟨h1, h2⟩; exact ⟨h1.symm, h2.symm⟩
  · rintro ⟨rfl, rfl⟩; exact ⟨rfl, rfl⟩

theorem rowSeg_any_bor (row c0 n : Nat) (f : Nat → Cell) (b : BSty) (r c : Nat) :
    ((rowSeg row c0 n f b).any (isBorAt r c) = true) ↔ r = row ∧ c0 ≤ c ∧ c < c0 + n := by
  induction n generalizing c0 with
  | zero =>
      constructor
      · intro h; simp [rowSeg] at h
      · rintro ⟨_, h1, h2⟩; omega
  | succ n ih =>
      rw [rowSeg_succ]
      constructor
      · intro h
        simp only [List.any_cons, Bool.or_eq_true] at h
        rcases h with h | h | h
        · simp [isBorAt] at h
        · simp only [isBorAt, Bool.and_eq_true, beq_iff_eq] at h
          exact ⟨h.1.symm, by omega⟩
        · have h2 := (ih (c0 + 1)).mp h
          exact ⟨h2.1, by omega⟩
      · rintro ⟨rfl, h1, h2⟩
        simp only [List.any_cons, Bool.or_eq_true]
        by_cases hc : c = c0
        · subst hc; right; left; simp [isBorAt]
        · right; right; exact (ih (c0 + 1)).mpr ⟨rfl, by omega, by omega⟩

theorem borderAt_rowSeg (row c0 n : Nat) (f : Nat → Cell) (b : BSty) (r c : Nat) :
    borderAt (rowSeg row c0 n f b) r c =
      if r = row ∧ c0 ≤ c ∧ c < c0 + n then b else BSty.blank := by
  induction n generalizing c0 with
  | zero =>
      rw [rowSeg_zero, if_neg (by omega)]
      rfl
  | succ n ih =>
      rw [rowSeg_succ,
        show (Wr.val row c0 (f c0) :: Wr.bor row c0 b :: rowSeg row (c0 + 1) n f b) =
          [Wr.val row c0 (f c0), Wr.bor row c0 b] ++ rowSeg row (c0 + 1) n f b from rfl,
        borderAt_append]
      by_cases h : r = row ∧ c0 + 1 ≤ c ∧ c < (c0 + 1) + n
      · rw [if_pos ((rowSeg_any_bor _ _ _ _ _ _ _).mpr h), ih, if_pos h, if_pos (by omega)]
      · rw [if_neg (fun hx => h ((rowSeg_any_bor _ _ _ _ _ _ _).mp hx)), borderAt_pair]
        by_cases h2 : r = row ∧ c = c0
        · rw [if_pos h2, if_pos (by omega)]
        · rw [if_neg h2, if_neg (by omega)]

theorem rowSeg_any_val (row c0 n : Nat) (f : Nat → Cell) (b : BSty) (r c : Nat) :
    ((rowSeg row c0 n f b).any (isValAt r c) = true) ↔ r = row ∧ c0 ≤ c ∧ c < c0 + n := by
  induction n generalizing c0 with
  | zero =>
      constructor
      · intro h; simp [rowSeg] at h
      · rintro ⟨_, h1, h2⟩; omega
  | succ n ih =>
      rw [rowSeg_succ]
      constructor
      · intro h
        simp only [List.any_cons, Bool.or_eq_true] at h
        rcases h with h | h | h
        · simp only [isValAt, Bool.and_eq_true, beq_iff_eq] at h
          exact ⟨h.1.symm, by omega⟩
        · simp [isValAt] at h
        · have h2 := (ih (c0 + 1)).mp h
          exact ⟨h2.1, by omega⟩
      · rintro ⟨rfl, h1, h2⟩
        simp only [List.any_cons, Bool.or_eq_true]
        by_cases hc : c = c0
        · subst hc; left; simp [isValAt]
        · right; right; exact (ih (c0 + 1)).mpr ⟨rfl, by omega, by omega⟩

theorem valAt_pair (row c0 : Nat) (v : Cell) (b : BSty) (r c : Nat) :
    valAt [Wr.val row c0 v, Wr.bor row c0 b] r c =
      if r = row ∧ c = c0 then some v else none := by
  show (if row == r && c0 == c then some v else none) = _
  by_cases h : r = row ∧ c = c0
  · rcases h with ⟨rfl, rfl⟩
    simp
  · have hb : (row == r && c0 == c) = false := by
      rw [Bool.and_eq_false_iff]
      rcases Decidable.not_and_iff_or_not.mp h with h1 | h1
      · exact Or.inl (beq_eq_false_iff_ne.mpr (fun e => h1 e.symm))
      · exact Or.inr (beq_eq_false_iff_ne.mpr (fun e => h1 e.symm))
    rw [hb, if_neg h]
    rfl

theorem valAt_rowSeg (row c0 n : Nat) (f : Nat → Cell) (b : BSty) (r c : Nat) :
    valAt (rowSeg row c0 n f b) r c =
      if r = row ∧ c0 ≤ c ∧ c < c0 + n then some (f c) else none := by
  induction n generalizing c0 with
  | zero =>
      rw [rowSeg_zero, if_neg (by omega)]
      rfl
  | succ n ih =>
      rw [rowSeg_succ,
        show (Wr.val row c0 (f c0) :: Wr.bor row c0 b :: rowSeg row (c0 + 1) n f b) =
          [Wr.val row c0 (f c0), Wr.bor row c0 b] ++ rowSeg row (c0 + 1) n f b from rfl,
        valAt_append]
      by_cases h : r = row ∧ c0 + 1 ≤ c ∧ c < (c0 + 1) + n
      · rw [if_pos ((rowSeg_any_val _ _ _ _ _ _ _).mpr h), ih, if_pos h, if_pos (by omega)]
      · rw [if_neg (fun hx => h ((rowSeg_any_val _ _ _ _ _ _ _).mp hx)), valAt_pair]
        by_cases h2 : r = row ∧ c = c0
        · rw [if_pos h2, if_pos (by omega)]
          exact congrArg some (congrArg f h2.2.symm)
        · rw [if_neg h2, if_neg (by omega)]

theorem rowSeg_row (row c0 n : Nat) (f : Nat → Cell) (b : BSty) :
    ∀ w ∈ rowSeg row c0 n f b, wrRow w = row := by
  induction n generalizing c0 with
  | zero => intro w hw; simp [rowSeg] at hw
  | succ n ih =>
      rw [rowSeg_succ]
      intro w hw
      rcases List.mem_cons.mp hw with hw | hw
      · subst hw; rfl
      rcases List.mem_cons.mp hw with hw | hw
      · subst hw; rfl
      · exact ih (c0 + 1) w hw

theorem rowSeg_col (row c0 n : Nat) (f : Nat → Cell) (b : BSty) :
    ∀ w ∈ rowSeg row c0 n f b, c0 ≤ wrCol w ∧ wrCol w < c0 + n := by
  induction n generalizing c0 with
  | zero => intro w hw; simp [rowSeg] at hw
  | succ n ih =>
      rw [rowSeg_succ]
      intro w hw
      rcases List.mem_cons.mp hw with hw | hw
      · subst hw; simp [wrCol]
      rcases List.mem_cons.mp hw with hw | hw
      · subst hw; simp [wrCol]
      · have := ih (c0 + 1) w hw
        omega

theorem borRowSeg_zero (row c0 : Nat) (b : BSty) : borRowSeg row c0 0 b = [] := rfl

theorem borRowSeg_succ (row c0 n : Nat) (b : BSty) :
    borRowSeg row c0 (n + 1) b = Wr.bor row c0 b :: borRowSeg row (c0 + 1) n b := by
  unfold borRowSeg
  rw [List.range'_succ]
  rfl

theorem borRowSeg_any_bor (row c0 n : Nat) (b : BSty) (r c : Nat) :
    ((borRowSeg row c0 n b).any (isBorAt r c) = true) ↔ r = row ∧ c0 ≤ c ∧ c < c0 + n := by
  induction n generalizing c0 with
  | zero =>
      constructor
      · intro h; simp [borRowSeg] at h
      · rintro ⟨_, h1, h2⟩; omega
  | succ n ih =>
      rw [borRowSeg_succ]
      constructor
      · intro h
        simp only [List.any_cons, Bool.or_eq_true] at h
        rcases h with h | h
        · simp only [isBorAt, Bool.and_eq_true, beq_iff_eq] at h
          exact ⟨h.1.symm, by omega⟩
        · have h2 := (ih (c0 + 1)).mp h
          exact ⟨h2.1, by omega⟩
      · rintro ⟨rfl, h1, h2⟩
        simp only [List.any_cons, Bool.or_eq_true]
        by_cases hc : c = c0
        · subst hc; left; simp [isBorAt]
        · right; exact (ih (c0 + 1)).mpr ⟨rfl, by omega, by omega⟩

theorem borderAt_single (row c0 : Nat) (b : BSty) (r c : Nat) :
    borderAt [Wr.bor row c0 b] r c = if r = row ∧ c = c0 then b else BSty.blank := by
  show (if row == r && c0 == c then b else BSty.blank) = _
  by_cases h : r = row ∧ c = c0
  · rcases h with ⟨rfl, rfl⟩
    rw [if_pos (by simp), if_pos ⟨rfl, rfl⟩]
  · have hb : (row == r && c0 == c) = false := by
      rw [Bool.and_eq_false_iff]
      rcases Decidable.not_and_iff_or_not.mp h with h1 | h1
      · exact Or.inl (beq_eq_false_iff_ne.mpr (fun e => h1 e.symm))
      · exact Or.inr (beq_eq_false_iff_ne.mpr (fun e => h1 e.symm))
    rw [hb, if_neg (by simp), if_neg h]

theorem borderAt_borRowSeg (row c0 n : Nat) (b : BSty) (r c : Nat) :
    borderAt (borRowSeg row c0 n b) r c =
      if r = row ∧ c0 ≤ c ∧ c < c0 + n then b else BSty.blank := by
  induction n generalizing c0 with
  | zero =>
      rw [borRowSeg_zero, if_neg (by omega)]
      rfl
  | succ n ih =>
      rw [borRowSeg_succ,
        show (Wr.bor row c0 b :: borRowSeg row (c0 + 1) n b) =
          [Wr.bor row c0 b] ++ borRowSeg row (c0 + 1) n b from rfl,
        borderAt_append]
      by_cases h : r = row ∧ c0 + 1 ≤ c ∧ c < (c0 + 1) + n
      · rw [if_pos ((borRowSeg_any_bor _ _ _ _ _ _).mpr h), ih, if_pos h, if_pos (by omega)]
      · rw [if_neg (fun hx => h ((borRowSeg_any_bor _ _ _ _ _ _).mp hx)), borderAt_single]
        by_cases h2 : r = row ∧ c = c0
        · rw [if_pos h2, if_pos (by omega)]
        · rw [if_neg h2, if_neg (by omega)]

theorem borRowSeg_row (row c0 n : Nat) (b : BSty) :
    ∀ w ∈ borRowSeg row c0 n b, wrRow w = row := by
  induction n generalizing c0 with
  | zero => intro w hw; simp [borRowSeg] at hw
  | succ n ih =>
      rw [borRowSeg_succ]
      intro w hw
      rcases List.mem_cons.mp hw with hw | hw
      · subst hw; rfl
      · exact ih (c0 + 1) w hw

theorem borRowSeg_col (row c0 n : Nat) (b : BSty) :
    ∀ w ∈ borRowSeg row c0 n b, c0 ≤ wrCol w ∧ wrCol w < c0 + n := by
  induction n generalizing c0 with
  | zero => intro w hw; simp [borRowSeg] at hw
  | succ n ih =>
      rw [borRowSeg_succ]
      intro w hw
      rcases List.mem_cons.mp hw with hw | hw
      · subst hw; simp [wrCol]
      · have := ih (c0 + 1) w hw
        omega

theorem borRowSeg_no_val (row c0 n : Nat) (b : BSty) :
    ∀ w ∈ borRowSeg row c0 n b, ∀ r c, isValAt r c w = false := by
  induction n generalizing c0 with
  | zero => intro w hw; simp [borRowSeg] at hw
  | succ n ih =>
      rw [borRowSeg_succ]
      intro w hw
      rcases List.mem_cons.mp hw with hw | hw
      · subst hw; intro r c; rfl
      · exact ih (c0 + 1) w hw

theorem borRowSeg_all_blank (row c0 n : Nat) :
    ∀ w ∈ borRowSeg row c0 n BSty.blank, ∀ r' c' b', w = Wr.bor r' c' b' → b' = BSty.blank := by
  induction n generalizing c0 with
  | zero => intro w hw; simp [borRowSeg] at hw
  | succ n ih =>
      rw [borRowSeg_succ]
      intro w hw
      rcases List.mem_cons.mp hw with hw | hw
      · subst hw
        intro r' c' b' he
        cases he
        rfl
      · exact ih (c0 + 1) w hw

theorem dataSeg_any_bor (ds c0 w : Nat) (rows : List (List Cell)) (r c : Nat) :
    ((dataSeg ds c0 w rows).any (isBorAt r c) = true) ↔
      ds ≤ r ∧ r < ds + rows.length ∧ c0 ≤ c ∧ c < c0 + w := by
  induction rows generalizing ds with
  | nil =>
      constructor
      · intro h; simp [dataSeg] at h
      · rintro ⟨h1, h2, _, _⟩; simp at h2; omega
  | cons row rest ih =>
      show ((rowSeg ds c0 w _ BSty.full ++ dataSeg (ds + 1) c0 w rest).any _ = true) ↔ _
      rw [List.any_append, Bool.or_eq_true, rowSeg_any_bor, ih]
      simp only [List.length_cons]
      constructor
      · rintro (⟨rfl, h1, h2⟩ | ⟨h1, h2, h3, h4⟩) <;> exact ⟨by omega, by omega, by omega, by omega⟩
      · rintro ⟨h1, h2, h3, h4⟩
        by_cases hr : r = ds
        · exact Or.inl ⟨hr, h3, h4⟩
        · exact Or.inr ⟨by omega, by omega, h3, h4⟩

theorem borderAt_dataSeg (ds c0 w : Nat) (rows : List (List Cell)) (r c : Nat) :
    borderAt (dataSeg ds c0 w rows) r c =
      if ds ≤ r ∧ r < ds + rows.length ∧ c0 ≤ c ∧ c < c0 + w then BSty.full
      else BSty.blank := by
  induction rows generalizing ds with
  | nil =>
      rw [if_neg (by simp; omega)]
      rfl
  | cons row rest ih =>
      show borderAt (rowSeg ds c0 w _ BSty.full ++ dataSeg (ds + 1) c0 w rest) r c = _
      rw [borderAt_append]
      by_cases h : ds + 1 ≤ r ∧ r < ds + 1 + rest.length ∧ c0 ≤ c ∧ c < c0 + w
      · rw [if_pos ((dataSeg_any_bor _ _ _ _ _ _).mpr h), ih, if_pos h,
          if_pos (by simp only [List.length_cons]; omega)]
      · rw [if_neg (fun hx => h ((dataSeg_any_bor _ _ _ _ _ _).mp hx)), borderAt_rowSeg]
        by_cases h2 : r = ds ∧ c0 ≤ c ∧ c < c0 + w
        · rw [if_pos h2, if_pos (by simp only [List.length_cons]; omega)]
        · rw [if_neg h2, if_neg (by simp only [List.length_cons]; omega)]

theorem dataSeg_any_val (ds c0 w : Nat) (rows : List (List Cell)) (r c : Nat) :
    ((dataSeg ds c0 w rows).any (isValAt r c) = true) ↔
      ds ≤ r ∧ r < ds + rows.length ∧ c0 ≤ c ∧ c < c0 + w := by
  induction rows generalizing ds with
  | nil =>
      constructor
      · intro h; simp [dataSeg] at h
      · rintro ⟨h1, h2, _, _⟩; simp at h2; omega
  | cons row rest ih =>
      show ((rowSeg ds c0 w _ BSty.full ++ dataSeg (ds + 1) c0 w rest).any _ = true) ↔ _
      rw [List.any_append, Bool.or_eq_true, rowSeg_any_val, ih]
      simp only [List.length_cons]
      constructor
      · rintro (⟨rfl, h1, h2⟩ | ⟨h1, h2, h3, h4⟩) <;> exact ⟨by omega, by omega, by omega, by omega⟩
      · rintro ⟨h1, h2, h3, h4⟩
        by_cases hr : r = ds
        · exact Or.inl ⟨hr, h3, h4⟩
        · exact Or.inr ⟨by omega, by omega, h3, h4⟩

theorem valAt_dataSeg (ds c0 w : Nat) (rows : List (List Cell)) (r c : Nat) :
    valAt (dataSeg ds c0 w rows) r c =
      if ds ≤ r ∧ r < ds + rows.length ∧ c0 ≤ c ∧ c < c0 + w then
        some ((rows.getD (r - ds) []).getD (c - c0) (Cell.s ""))
      else none := by
  induction rows generalizing ds with
  | nil =>
      rw [if_neg (by simp; omega)]
      rfl
  | cons row rest ih =>
      show valAt (rowSeg ds c0 w (fun c => row.getD (c - c0) (Cell.s "")) BSty.full ++
        dataSeg (ds + 1) c0 w rest) r c = _
      rw [valAt_append]
      by_cases h : ds + 1 ≤ r ∧ r < ds + 1 + rest.length ∧ c0 ≤ c ∧ c < c0 + w
      · rw [if_pos ((dataSeg_any_val _ _ _ _ _ _).mpr h), ih, if_pos h,
          if_pos (by simp only [List.length_cons]; omega)]
        have hk : r - ds = (r - (ds + 1)) + 1 := by omega
        rw [hk]
        rfl
      · rw [if_neg (fun hx => h ((dataSeg_any_val _ _ _ _ _ _).mp hx)), valAt_rowSeg]
        by_cases h2 : r = ds ∧ c0 ≤ c ∧ c < c0 + w
        · rw [if_pos h2, if_pos (by simp only [List.length_cons]; omega)]
          rcases h2 with ⟨rfl, _, _⟩
          simp
        · rw [if_neg h2, if_neg (by simp only [List.length_cons]; omega)]

theorem dataSeg_row (ds c0 w : Nat) (rows : List (List Cell)) :
    ∀ x ∈ dataSeg ds c0 w rows, ds ≤ wrRow x ∧ wrRow x < ds + rows.length := by
  induction rows generalizing ds with
  | nil => intro x hx; simp [dataSeg] at hx
  | cons row rest ih =>
      intro x hx
      rcases List.mem_append.mp hx with hx | hx
      · have := rowSeg_row ds c0 w _ BSty.full x hx
        simp only [List.length_cons]
        omega
      · have := ih (ds + 1) x hx
        simp only [List.length_cons]
        omega

theorem dataSeg_col (ds c0 w : Nat) (rows : List (List Cell)) :
    ∀ x ∈ dataSeg ds c0 w rows, c0 ≤ wrCol x ∧ wrCol x < c0 + w := by
  induction rows generalizing ds with
  | nil => intro x hx; simp [dataSeg] at hx
  | cons row rest ih =>
      intro x hx
      rcases List.mem_append.mp hx with hx | hx
      · exact rowSeg_col ds c0 w _ BSty.full x hx
      · exact ih (ds + 1) x hx

theorem borderAt_append_right {w1 w2 : List Wr} {r c : Nat}
    (h : ∀ w ∈ w1, isBorAt r c w = false) :
    borderAt (w1 ++ w2) r c = borderAt w2 r c := by
  rw [borderAt_append]
  split
  · rfl
  · rename_i hn
    have h2 : ∀ w ∈ w2, isBorAt r c w = false := by
      intro w hw
      by_contra hc
      exact hn (List.any_eq_true.mpr ⟨w, hw, by simpa using hc⟩)
    rw [borderAt_of_no_touch h, borderAt_of_no_touch h2]

theorem borderAt_append_left {w1 w2 : List Wr} {r c : Nat}
    (h : ∀ w ∈ w2, isBorAt r c w = false) :
    borderAt (w1 ++ w2) r c = borderAt w1 r c := by
  rw [borderAt_append, if_neg]
  intro hc
  rcases List.any_eq_true.mp hc with ⟨w, hw, hb⟩
  rw [h w hw] at hb
  exact Bool.false_ne_true hb

theorem valAt_append_right {w1 w2 : List Wr} {r c : Nat}
    (h : ∀ w ∈ w1, isValAt r c w = false) :
    valAt (w1 ++ w2) r c = valAt w2 r c := by
  rw [valAt_append]
  split
  · rfl
  · rename_i hn
    have h2 : ∀ w ∈ w2, isValAt r c w = false := by
      intro w hw
      by_contra hc
      exact hn (List.any_eq_true.mpr ⟨w, hw, by simpa using hc⟩)
    rw [valAt_of_no_touch h, valAt_of_no_touch h2]

theorem valAt_append_left {w1 w2 : List Wr} {r c : Nat}
    (h : ∀ w ∈ w2, isValAt r c w = false) :
    valAt (w1 ++ w2) r c = valAt w1 r c := by
  rw [valAt_append, if_neg]
  intro hc
  rcases List.any_eq_true.mp hc with ⟨w, hw, hb⟩
  rw [h w hw] at hb
  exact Bool.false_ne_true hb

theorem no_touch_of_row_ne {r c : Nat} {ws : List Wr} {row : Nat}
    (hr : ∀ w ∈ ws, wrRow w = row) (hne : r ≠ row) :
    ∀ w ∈ ws, isBorAt r c w = false :=
  no_touch_of_row (fun w hw => by rw [hr w hw]; exact fun e => hne e.symm)

theorem borderAt_of_all_blank {ws : List Wr}
    (h : ∀ w ∈ ws, ∀ r' c' b', w = Wr.bor r' c' b' → b' = BSty.blank) (r c : Nat) :
    borderAt ws r c = BSty.blank := by
  unfold borderAt
  induction ws with
  | nil => rfl
  | cons w ws ih =>
      rw [List.foldl_cons]
      have hs : borStep r c BSty.blank w = BSty.blank := by
        cases w with
        | val => rfl
        | bor r' c' b' =>
            have := h _ (by simp) r' c' b' rfl
            subst this
            simp [borStep]
      rw [hs]
      exact ih (fun w hw => h w (by simp [hw]))

theorem filtSeg_any_bor (P : Nat → Prop) [DecidablePred P] (tr : Nat) (b : BSty)
    (s n r c : Nat) :
    (((List.range' s n).filterMap
        (fun ci => if P ci then none else some (Wr.bor tr ci b))).any (isBorAt r c) = true) ↔
      r = tr ∧ s ≤ c ∧ c < s + n ∧ ¬ P c := by
  induction n generalizing s with
  | zero =>
      constructor
      · intro h; simp at h
      · rintro ⟨_, h1, h2, _⟩; omega
  | succ n ih =>
      rw [List.range'_succ, List.filterMap_cons]
      by_cases hp : P s
      · rw [if_pos hp]
        rw [ih (s + 1)]
        constructor
        · rintro ⟨rfl, h1, h2, h3⟩
          exact ⟨rfl, by omega, by omega, h3⟩
        · rintro ⟨rfl, h1, h2, h3⟩
          have hcs : c ≠ s := fun e => h3 (e ▸ hp)
          exact ⟨rfl, by omega, by omega, h3⟩
      · rw [if_neg hp]
        constructor
        · intro h
          simp only [List.any_cons, Bool.or_eq_true] at h
          rcases h with h | h
          · simp only [isBorAt, Bool.and_eq_true, beq_iff_eq] at h
            exact ⟨h.1.symm, by omega, by omega, h.2 ▸ hp⟩
          · have h2 := (ih (s + 1)).mp h
            exact ⟨h2.1, by omega, by omega, h2.2.2.2⟩
        · rintro ⟨rfl, h1, h2, h3⟩
          simp only [List.any_cons, Bool.or_eq_true]
          by_cases hc : c = s
          · subst hc; left; simp [isBorAt]
          · right; exact (ih (s + 1)).mpr ⟨rfl, by omega, by omega, h3⟩

theorem borderAt_filtSeg (P : Nat → Prop) [DecidablePred P] (tr : Nat) (b : BSty)
    (s n r c : Nat) :
    borderAt ((List.range' s n).filterMap
        (fun ci => if P ci then none else some (Wr.bor tr ci b))) r c =
      if r = tr ∧ s ≤ c ∧ c < s + n ∧ ¬ P c then b else BSty.blank := by
  induction n generalizing s with
  | zero =>
      rw [if_neg (by omega)]
      rfl
  | succ n ih =>
      rw [List.range'_succ]
      by_cases hp : P s
      · rw [List.filterMap_cons_none (by rw [if_pos hp]), ih (s + 1)]
        by_cases h : r = tr ∧ s + 1 ≤ c ∧ c < s + 1 + n ∧ ¬ P c
        · rw [if_pos h, if_pos (by obtain ⟨h1, h2, h3, h4⟩ := h; exact ⟨h1, by omega, by omega, h4⟩)]
        · rw [if_neg h, if_neg]
          rintro ⟨rfl, h1, h2, h3⟩
          have hcs : c ≠ s := fun e => h3 (e ▸ hp)
          exact h ⟨rfl, by omega, by omega, h3⟩
      · rw [List.filterMap_cons_some (by rw [if_neg hp]),
          show (Wr.bor tr s b :: (List.range' (s + 1) n).filterMap
              (fun ci => if P ci then none else some (Wr.bor tr ci b))) =
            [Wr.bor tr s b] ++ (List.range' (s + 1) n).filterMap
              (fun ci => if P ci then none else some (Wr.bor tr ci b)) from rfl,
          borderAt_append]
        by_cases h : r = tr ∧ s + 1 ≤ c ∧ c < s + 1 + n ∧ ¬ P c
        · rw [if_pos ((filtSeg_any_bor P tr b (s + 1) n r c).mpr h), ih, if_pos h,
            if_pos (by obtain ⟨h1, h2, h3, h4⟩ := h; exact ⟨h1, by omega, by omega, h4⟩)]
        · rw [if_neg (fun hx => h ((filtSeg_any_bor P tr b (s + 1) n r c).mp hx)),
            borderAt_single]
          by_cases h2 : r = tr ∧ c = s
          · rw [if_pos h2, if_pos (by obtain ⟨rfl, rfl⟩ := h2; exact ⟨rfl, by omega, by omega, hp⟩)]
          · rw [if_neg h2, if_neg]
            rintro ⟨rfl, h1, h3, h4⟩
            by_cases hc : c = s
            · exact h2 ⟨rfl, hc⟩
            · exact h ⟨rfl, by omega, by omega, h4⟩

theorem filtSeg_row (P : Nat → Prop) [DecidablePred P] (tr : Nat) (b : BSty) (s n : Nat) :
    ∀ w ∈ (List.range' s n).filterMap
        (fun ci => if P ci then none else some (Wr.bor tr ci b)), wrRow w = tr := by
  intro w hw
  rcases List.mem_filterMap.mp hw with ⟨ci, _, hci⟩
  by_cases hp : P ci
  · rw [if_pos hp] at hci; cases hci
  · rw [if_neg hp] at hci
    cases hci
    rfl

theorem filtSeg_col (P : Nat → Prop) [DecidablePred P] (tr : Nat) (b : BSty) (s n : Nat) :
    ∀ w ∈ (List.range' s n).filterMap
        (fun ci => if P ci then none else some (Wr.bor tr ci b)),
      s ≤ wrCol w ∧ wrCol w < s + n := by
  intro w hw
  rcases List.mem_filterMap.mp hw with ⟨ci, hmem, hci⟩
  have hr := List.mem_range'_1.mp hmem
  by_cases hp : P ci
  · rw [if_pos hp] at hci; cases hci
  · rw [if_neg hp] at hci
    cases hci
    exact hr

theorem filtSeg_no_val (P : Nat → Prop) [DecidablePred P] (tr : Nat) (b : BSty) (s n : Nat) :
    ∀ w ∈ (List.range' s n).filterMap
        (fun ci => if P ci then none else some (Wr.bor tr ci b)), ∀ r c, isValAt r c w = false := by
  intro w hw
  rcases List.mem_filterMap.mp hw with ⟨ci, _, hci⟩
  by_cases hp : P ci
  · rw [if_pos hp] at hci; cases hci
  · rw [if_neg hp] at hci
    cases hci
    intro r c
    rfl

theorem rowsSeg_any_bor (r0 k c0 n : Nat) (b : BSty) (r c : Nat) :
    (((List.range' r0 k).flatMap (fun rr => borRowSeg rr c0 n b)).any (isBorAt r c) = true) ↔
      r0 ≤ r ∧ r < r0 + k ∧ c0 ≤ c ∧ c < c0 + n := by
  induction k generalizing r0 with
  | zero =>
      constructor
      · intro h; simp at h
      · rintro ⟨h1, h2, _, _⟩; omega
  | succ k ih =>
      rw [List.range'_succ, List.flatMap_cons, List.any_append, Bool.or_eq_true,
        borRowSeg_any_bor, ih]
      constructor
      · rintro (⟨rfl, h1, h2⟩ | ⟨h1, h2, h3, h4⟩) <;> exact ⟨by omega, by omega, by omega, by omega⟩
      · rintro ⟨h1, h2, h3, h4⟩
        by_cases hr : r = r0
        · exact Or.inl ⟨hr, h3, h4⟩
        · exact Or.inr ⟨by omega, by omega, h3, h4⟩

theorem borderAt_rowsSeg (r0 k c0 n : Nat) (b : BSty) (r c : Nat) :
    borderAt ((List.range' r0 k).flatMap (fun rr => borRowSeg rr c0 n b)) r c =
      if r0 ≤ r ∧ r < r0 + k ∧ c0 ≤ c ∧ c < c0 + n then b else BSty.blank := by
  induction k generalizing r0 with
  | zero =>
      rw [if_neg (by omega)]
      rfl
  | succ k ih =>
      rw [List.range'_succ, List.flatMap_cons, borderAt_append]
      by_cases h : r0 + 1 ≤ r ∧ r < r0 + 1 + k ∧ c0 ≤ c ∧ c < c0 + n
      · rw [if_pos ((rowsSeg_any_bor _ _ _ _ _ _ _).mpr h), ih, if_pos h, if_pos (by omega)]
      · rw [if_neg (fun hx => h ((rowsSeg_any_bor _ _ _ _ _ _ _).mp hx)), borderAt_borRowSeg]
        by_cases h2 : r = r0 ∧ c0 ≤ c ∧ c < c0 + n
        · rw [if_pos h2, if_pos (by omega)]
        · rw [if_neg h2, if_neg (by omega)]

theorem rowsSeg_row (r0 k c0 n : Nat) (b : BSty) :
    ∀ w ∈ (List.range' r0 k).flatMap (fun rr => borRowSeg rr c0 n b),
      r0 ≤ wrRow w ∧ wrRow w < r0 + k := by
  intro w hw
  rcases List.mem_flatMap.mp hw with ⟨rr, hrr, hmem⟩
  have h1 := List.mem_range'_1.mp hrr
  have h2 := borRowSeg_row rr c0 n b w hmem
  omega

theorem rowsSeg_col (r0 k c0 n : Nat) (b : BSty) :
    ∀ w ∈ (List.range' r0 k).flatMap (fun rr => borRowSeg rr c0 n b),
      c0 ≤ wrCol w ∧ wrCol w < c0 + n := by
  intro w hw
  rcases List.mem_flatMap.mp hw with ⟨rr, hrr, hmem⟩
  exact borRowSeg_col rr c0 n b w hmem

theorem rowsSeg_no_val (r0 k c0 n : Nat) (b : BSty) :
    ∀ w ∈ (List.range' r0 k).flatMap (fun rr => borRowSeg rr c0 n b),
      ∀ r c, isValAt r c w = false := by
  intro w hw
  rcases List.mem_flatMap.mp hw with ⟨rr, hrr, hmem⟩
  exact borRowSeg_no_val rr c0 n b w hmem

theorem rowsSeg_all_blank (r0 k c0 n : Nat) :
    ∀ w ∈ (List.range' r0 k).flatMap (fun rr => borRowSeg rr c0 n BSty.blank),
      ∀ r' c' b', w = Wr.bor r' c' b' → b' = BSty.blank := by
  intro w hw
  rcases List.mem_flatMap.mp hw with ⟨rr, hrr, hmem⟩
  exact borRowSeg_all_blank rr c0 n w hmem

/-! ### Block-level characterizations -/

theorem borderAt_renderTypeBlock (t : TypeTable) (a r c : Nat)
    (hlen : t.data.length = t.data_rows)
    (hsc : t.specs.length + 2 ≤ t.total_cols)
    (htci : t.total_col_idx = t.specs.length + 2) :
    borderAt (renderTypeBlock t a) r c =
      if inRectT t a r c ∧ ¬(r = a ∧ c ≠ 1) then BSty.full else BSty.blank := by
  have hbs : blockSpacing = 2 := rfl
  have e1 : a + 1 + 1 + t.data_rows - 1 = a + t.data_rows + 1 := by omega
  simp only [renderTypeBlock, ← List.append_assoc, e1]
  simp only [borderAt_append, rowsSeg_any_bor, filtSeg_any_bor, rowSeg_any_bor,
    dataSeg_any_bor, any_pair_bor, borderAt_rowsSeg, borderAt_filtSeg, borderAt_rowSeg,
    borderAt_dataSeg, borderAt_pair, ite_self]
  simp only [inRectT, typeBlockEnd, hlen, htci]
  split_ifs <;> first | rfl | omega

set_option maxHeartbeats 1000000 in
theorem borderAt_patternBlock (title : String) (s : PatternStruct) (a c0 r c : Nat)
    (hlen : s.data.length = s.row_count)
    (htci : s.total_col_idx = min (s.spec_count + 2) s.total_cols)
    (h6 : 6 ≤ s.total_cols) :
    borderAt (generateSinglePatternBlock title s a c0).1 r c =
      if inRectP s a c0 r c ∧ ¬(r = a ∧ c ≠ c0) then BSty.full else BSty.blank := by
  have e1 : a + 1 + 1 + s.row_count - 1 = a + s.row_count + 1 := by omega
  have hcl : c0 + s.total_col_idx - 1 ≤ c0 + s.total_cols - 1 := by omega
  simp only [generateSinglePatternBlock, ← List.append_assoc, e1, hcl, if_true]
  simp only [borderAt_append, filtSeg_any_bor, rowSeg_any_bor,
    dataSeg_any_bor, any_pair_bor, borderAt_filtSeg, borderAt_rowSeg,
    borderAt_dataSeg, borderAt_pair, ite_self]
  simp only [inRectP, patternBlockEnd, hlen, htci]
  split_ifs <;> first | rfl | omega

theorem any_pair_val (row c0 : Nat) (v : Cell) (b : BSty) (r c : Nat) :
    ([Wr.val row c0 v, Wr.bor row c0 b].any (isValAt r c) = true) ↔ r = row ∧ c = c0 := by
  simp [isValAt]
  constructor
  · rintro ⟨h1, h2⟩; exact ⟨h1.symm, h2.symm⟩
  · rintro ⟨rfl, rfl⟩; exact ⟨rfl, rfl⟩

theorem filtSeg_any_val_false (P : Nat → Prop) [DecidablePred P] (tr : Nat) (b : BSty)
    (s n r c : Nat) :
    (((List.range' s n).filterMap
        (fun ci => if P ci then none else some (Wr.bor tr ci b))).any (isValAt r c) = true) ↔
      False := by
  simp only [iff_false]
  intro h
  rcases List.any_eq_true.mp h with ⟨w, hw, hv⟩
  rw [filtSeg_no_val P tr b s n w hw r c] at hv
  exact Bool.false_ne_true hv

theorem rowsSeg_any_val_false (r0 k c0 n : Nat) (b : BSty) (r c : Nat) :
    (((List.range' r0 k).flatMap (fun rr => borRowSeg rr c0 n b)).any (isValAt r c) = true) ↔
      False := by
  simp only [iff_false]
  intro h
  rcases List.any_eq_true.mp h with ⟨w, hw, hv⟩
  rw [rowsSeg_no_val r0 k c0 n b w hw r c] at hv
  exact Bool.false_ne_true hv

theorem valAt_filtSeg (P : Nat → Prop) [DecidablePred P] (tr : Nat) (b : BSty) (s n r c : Nat) :
    valAt ((List.range' s n).filterMap
        (fun ci => if P ci then none else some (Wr.bor tr ci b))) r c = none :=
  valAt_of_no_touch (fun w hw => filtSeg_no_val P tr b s n w hw r c)

theorem valAt_rowsSeg (r0 k c0 n : Nat) (b : BSty) (r c : Nat) :
    valAt ((List.range' r0 k).flatMap (fun rr => borRowSeg rr c0 n b)) r c = none :=
  valAt_of_no_touch (fun w hw => rowsSeg_no_val r0 k c0 n b w hw r c)

set_option maxHeartbeats 1000000 in
theorem valAt_renderTypeBlock (t : TypeTable) (a r c : Nat)
    (hlen : t.data.length = t.data_rows)
    (htci : t.total_col_idx = t.specs.length + 2) :
    valAt (renderTypeBlock t a) r c =
      if r = a ∧ c = 1 then some (Cell.s t.title)
      else if r = a + 1 ∧ 1 ≤ c ∧ c < 1 + t.total_cols then
        some (Cell.s (t.headers.getD (c - 1) ""))
      else if a + 1 + 1 ≤ r ∧ r < a + 1 + 1 + t.data_rows ∧ 1 ≤ c ∧ c < 1 + t.total_cols then
        some ((t.data.getD (r - (a + 1 + 1)) []).getD (c - 1) (Cell.s ""))
      else if r = a + t.data_rows + 1 + 1 ∧ c = 1 then some (Cell.s "合计")
      else if r = a + t.data_rows + 1 + 1 ∧ 2 ≤ c ∧ c < 2 + t.specs.length then
        some (Cell.s (sumFormula c (a + 1 + 1) (a + t.data_rows + 1)))
      else if r = a + t.data_rows + 1 + 1 ∧ c = t.total_col_idx then
        some (Cell.s (sumFormula t.total_col_idx (a + 1 + 1) (a + t.data_rows + 1)))
      else none := by
  have e1 : a + 1 + 1 + t.data_rows - 1 = a + t.data_rows + 1 := by omega
  simp only [renderTypeBlock, ← List.append_assoc, e1]
  simp only [valAt_append, rowsSeg_any_val_false, filtSeg_any_val_false, rowSeg_any_val,
    dataSeg_any_val, any_pair_val, valAt_rowsSeg, valAt_filtSeg, valAt_rowSeg,
    valAt_dataSeg, valAt_pair, ite_self, if_false, hlen, htci]
  split_ifs <;> first | rfl | omega

set_option maxHeartbeats 1000000 in
theorem valAt_patternBlock (title : String) (s : PatternStruct) (a c0 r c : Nat)
    (hlen : s.data.length = s.row_count)
    (htci : s.total_col_idx = min (s.spec_count + 2) s.total_cols)
    (h6 : 6 ≤ s.total_cols) :
    valAt (generateSinglePatternBlock title s a c0).1 r c =
      if r = a ∧ c = c0 then some (Cell.s title)
      else if r = a + 1 ∧ c0 ≤ c ∧ c < c0 + s.total_cols then
        some (Cell.s (s.headers.getD (c - c0) ""))
      else if a + 1 + 1 ≤ r ∧ r < a + 1 + 1 + s.row_count ∧ c0 ≤ c ∧ c < c0 + s.total_cols then
        some ((s.data.getD (r - (a + 1 + 1)) []).getD (c - c0) (Cell.s ""))
      else if r = a + s.row_count + 1 + 1 ∧ c = c0 then some (Cell.s "合计")
      else if r = a + s.row_count + 1 + 1 ∧ c = c0 + s.total_col_idx - 1 then
        some (Cell.s (sumFormula (c0 + s.total_col_idx - 1) (a + 1 + 1) (a + s.row_count + 1)))
      else if r = a + s.row_count + 1 + 1 ∧ c0 + 1 ≤ c ∧
          c < c0 + 1 + min s.spec_count (s.total_cols - 1) then
        some (Cell.s (sumFormula c (a + 1 + 1) (a + s.row_count + 1)))
      else none := by
  have e1 : a + 1 + 1 + s.row_count - 1 = a + s.row_count + 1 := by omega
  have hcl : c0 + s.total_col_idx - 1 ≤ c0 + s.total_cols - 1 := by omega
  simp only [generateSinglePatternBlock, ← List.append_assoc, e1, hcl, if_true]
  simp only [valAt_append, filtSeg_any_val_false, rowSeg_any_val,
    dataSeg_any_val, any_pair_val, valAt_filtSeg, valAt_rowSeg,
    valAt_dataSeg, valAt_pair, ite_self, if_false, hlen, htci]
  split_ifs <;> first | rfl | omega

/-! ### Write bounds -/

theorem renderTypeBlock_row_bound (t : TypeTable) (a : Nat)
    (hlen : t.data.length = t.data_rows) :
    ∀ w ∈ renderTypeBlock t a, a ≤ wrRow w ∧ wrRow w ≤ a + t.data_rows + 3 := by
  have hbs : blockSpacing = 2 := rfl
  have e1 : a + 1 + 1 + t.data_rows - 1 = a + t.data_rows + 1 := by omega
  intro w hw
  simp only [renderTypeBlock, ← List.append_assoc, e1, List.mem_append] at hw
  rcases hw with ((((((hw | hw) | hw) | hw) | hw) | hw) | hw) | hw
  · rcases List.mem_cons.mp hw with hw | hw
    · subst hw; simp only [wrRow]; omega
    rcases List.mem_cons.mp hw with hw | hw
    · subst hw; simp only [wrRow]; omega
    · simp at hw
  · have := rowSeg_row _ _ _ _ _ w hw; omega
  · have := dataSeg_row _ _ _ _ w hw; rw [hlen] at this; omega
  · rcases List.mem_cons.mp hw with hw | hw
    · subst hw; simp [wrRow]; omega
    rcases List.mem_cons.mp hw with hw | hw
    · subst hw; simp [wrRow]; omega
    · simp at hw
  · have := rowSeg_row _ _ _ _ _ w hw; omega
  · rcases List.mem_cons.mp hw with hw | hw
    · subst hw; simp [wrRow]; omega
    rcases List.mem_cons.mp hw with hw | hw
    · subst hw; simp [wrRow]; omega
    · simp at hw
  · have := filtSeg_row _ _ _ _ _ w hw; omega
  · have := rowsSeg_row _ _ _ _ _ w hw; omega

theorem patternBlock_row_bound (title : String) (s : PatternStruct) (a c0 : Nat)
    (hlen : s.data.length = s.row_count) :
    ∀ w ∈ (generateSinglePatternBlock title s a c0).1,
      a ≤ wrRow w ∧ wrRow w ≤ a + s.row_count + 2 := by
  have e1 : a + 1 + 1 + s.row_count - 1 = a + s.row_count + 1 := by omega
  intro w hw
  simp only [generateSinglePatternBlock, ← List.append_assoc, e1, List.mem_append] at hw
  rcases hw with ((((((hw | hw) | hw) | hw) | hw) | hw) | hw)
  · rcases List.mem_cons.mp hw with hw | hw
    · subst hw; simp only [wrRow]; omega
    rcases List.mem_cons.mp hw with hw | hw
    · subst hw; simp only [wrRow]; omega
    · simp at hw
  · have := rowSeg_row _ _ _ _ _ w hw; omega
  · have := dataSeg_row _ _ _ _ w hw; rw [hlen] at this; omega
  · rcases List.mem_cons.mp hw with hw | hw
    · subst hw; simp [wrRow]; omega
    rcases List.mem_cons.mp hw with hw | hw
    · subst hw; simp [wrRow]; omega
    · simp at hw
  · have := rowSeg_row _ _ _ _ _ w hw; omega
  · split at hw
    · rcases List.mem_cons.mp hw with hw | hw
      · subst hw; simp [wrRow]; omega
      rcases List.mem_cons.mp hw with hw | hw
      · subst hw; simp [wrRow]; omega
      · simp at hw
    · simp at hw
  · have := filtSeg_row _ _ _ _ _ w hw; omega

theorem patternBlock_col_bound (title : String) (s : PatternStruct) (a c0 : Nat)
    (h1 : 1 ≤ s.total_cols) (htci1 : 1 ≤ s.total_col_idx) :
    ∀ w ∈ (generateSinglePatternBlock title s a c0).1,
      c0 ≤ wrCol w ∧ wrCol w ≤ c0 + s.total_cols - 1 := by
  have e1 : a + 1 + 1 + s.row_count - 1 = a + s.row_count + 1 := by omega
  intro w hw
  simp only [generateSinglePatternBlock, ← List.append_assoc, e1, List.mem_append] at hw
  rcases hw with ((((((hw | hw) | hw) | hw) | hw) | hw) | hw)
  · rcases List.mem_cons.mp hw with hw | hw
    · subst hw; simp [wrCol]; omega
    rcases List.mem_cons.mp hw with hw | hw
    · subst hw; simp [wrCol]; omega
    · simp at hw
  · have := rowSeg_col _ _ _ _ _ w hw; omega
  · have := dataSeg_col _ _ _ _ w hw; omega
  · rcases List.mem_cons.mp hw with hw | hw
    · subst hw; simp [wrCol]; omega
    rcases List.mem_cons.mp hw with hw | hw
    · subst hw; simp [wrCol]; omega
    · simp at hw
  · have := rowSeg_col _ _ _ _ _ w hw
    have h2 : min s.spec_count (s.total_cols - 1) ≤ s.total_cols - 1 := Nat.min_le_right _ _
    omega
  · split at hw
    · rename_i hcond
      rcases List.mem_cons.mp hw with hw | hw
      · subst hw; simp [wrCol]; omega
      rcases List.mem_cons.mp hw with hw | hw
      · subst hw; simp [wrCol]; omega
      · simp at hw
    · simp at hw
  · have := filtSeg_col _ _ _ _ _ w hw; omega

/-! ### Construction invariants -/

theorem typeRow_length (g : List Record) (specs : List String) (hl : Nat) (color : String)
    (h : specs.length + 2 ≤ hl) : (typeRow g specs hl color).length = hl := by
  unfold typeRow
  simp only [List.length_append, List.length_cons, List.length_map, List.length_replicate,
    List.length_nil]
  omega

theorem patternRow_length (g : List Record) (specs : List String) (totalCols : Nat)
    (color : String) : (patternRow g specs totalCols color).length = totalCols := by
  unfold patternRow
  simp only [List.length_append, List.length_take, List.length_cons, List.length_map,
    List.length_replicate, List.length_nil]
  omega

theorem calcTypeTable_phi (date tname : String) (g : List Record) :
    TypePhi (calcTypeTable date tname g) := by
  have hm : minColumns = 6 := rfl
  unfold TypePhi calcTypeTable
  dsimp only
  have hbl : ("颜色" :: (sortSpecs (uniqueSorted (g.map (·.size))) ++ ["行合计"])).length =
      (sortSpecs (uniqueSorted (g.map (·.size)))).length + 2 := by
    simp only [List.length_cons, List.length_append, List.length_nil]
  by_cases h1 : ("颜色" :: (sortSpecs (uniqueSorted (g.map (·.size))) ++ ["行合计"])).length <
      minColumns
  · simp only [if_pos h1]
    refine ⟨by first | rfl | trivial, by first | exact List.length_map _ _ | trivial, by first | rfl | trivial, ?_, ?_⟩
    · simp only [List.length_append, List.length_replicate, hbl]
      rw [hbl] at h1
      omega
    · intro row hrow
      rcases List.mem_map.mp hrow with ⟨color, _, hcol⟩
      subst hcol
      apply typeRow_length
      simp only [List.length_append, List.length_replicate, hbl]
      rw [hbl] at h1
      omega
  · simp only [if_neg h1]
    refine ⟨by first | rfl | trivial, by first | exact List.length_map _ _ | trivial, by first | rfl | trivial, ?_, ?_⟩
    · simp only [hbl] at h1 ⊢
      omega
    · intro row hrow
      rcases List.mem_map.mp hrow with ⟨color, _, hcol⟩
      subst hcol
      apply typeRow_length
      simp only [hbl] at h1 ⊢
      omega

theorem setLast_length (l : List String) (v : String) : (setLast l v).length = l.length := by
  induction l with
  | nil => rfl
  | cons x xs ih =>
      cases xs with
      | nil => rfl
      | cons y ys =>
          show (x :: setLast (y :: ys) v).length = (x :: y :: ys).length
          simp only [List.length_cons]
          simp only [List.length_cons] at ih
          omega

theorem getPatternTableStructure_phi (g : List Record) :
    PatternPhi (getPatternTableStructure g) := by
  have hm : minColumns = 6 := rfl
  have hx : maxColumns = 10 := rfl
  unfold PatternPhi getPatternTableStructure
  dsimp only
  have hbl : ("颜色" :: (uniqueSorted (g.map (·.size)) ++ ["行合计"])).length =
      (uniqueSorted (g.map (·.size))).length + 2 := by
    simp only [List.length_cons, List.length_append, List.length_nil]
  by_cases h1 : ("颜色" :: (uniqueSorted (g.map (·.size)) ++ ["行合计"])).length < minColumns
  · simp only [if_pos h1]
    try dsimp only
    rw [hbl] at h1
    refine ⟨?_, by first | exact List.length_map _ _ | trivial, by first | rfl | trivial, ?_, ?_, ?_⟩
    · simp only [List.length_append, List.length_replicate, hbl]
      omega
    · split <;> omega
    · omega
    · intro row hrow
      rcases List.mem_map.mp hrow with ⟨color, _, hcol⟩
      subst hcol
      apply patternRow_length
  · simp only [if_neg h1]
    rw [hbl] at h1
    by_cases h2 : ("颜色" :: (uniqueSorted (g.map (·.size)) ++ ["行合计"])).length > maxColumns
    · simp only [if_pos h2]
      try dsimp only
      rw [hbl] at h2
      refine ⟨?_, by first | exact List.length_map _ _ | trivial, by first | rfl | trivial, ?_, ?_, ?_⟩
      · rw [setLast_length, List.length_take, hbl]
        omega
      · split <;> omega
      · omega
      · intro row hrow
        rcases List.mem_map.mp hrow with ⟨color, _, hcol⟩
        subst hcol
        apply patternRow_length
    · simp only [if_neg h2]
      try dsimp only
      rw [hbl] at h2
      refine ⟨?_, by first | exact List.length_map _ _ | trivial, by first | rfl | trivial, ?_, ?_, ?_⟩
      · first | trivial | exact hbl
      · rw [hbl]
        split <;> omega
      · rw [hbl]
        omega
      · intro row hrow
        rcases List.mem_map.mp hrow with ⟨color, _, hcol⟩
        subst hcol
        apply patternRow_length

/-! ### Summary sheet stacking -/

theorem goodCellT_nil (r c : Nat) : ¬ goodCellT [] r c := by
  simp [goodCellT]

theorem goodCellT_cons (p : TypeTable × Nat) (pl : List (TypeTable × Nat)) (r c : Nat) :
    goodCellT (p :: pl) r c ↔
      (inRectT p.1 p.2 r c ∧ ¬(r = p.2 ∧ c ≠ 1)) ∨ goodCellT pl r c := by
  simp [goodCellT]

theorem genTypeSheet_write_lb (ts : List TypeTable) (cur : Nat)
    (h : ∀ t ∈ ts, t.data.length = t.data_rows) :
    ∀ w ∈ (genTypeSheet ts cur).1, cur ≤ wrRow w := by
  induction ts generalizing cur with
  | nil => intro w hw; simp [genTypeSheet] at hw
  | cons t rest ih =>
      intro w hw
      simp only [genTypeSheet] at hw
      rcases List.mem_append.mp hw with hw | hw
      · exact (renderTypeBlock_row_bound t cur (h t (by simp)) w hw).1
      · have := ih (typeBlockEnd t cur + blockSpacing) (fun u hu => h u (by simp [hu])) w hw
        unfold typeBlockEnd at this
        omega

theorem genTypeSheet_anchor_lb (ts : List TypeTable) (cur : Nat) :
    ∀ p ∈ (genTypeSheet ts cur).2, cur ≤ p.2 := by
  induction ts generalizing cur with
  | nil => intro p hp; simp [genTypeSheet] at hp
  | cons t rest ih =>
      intro p hp
      simp only [genTypeSheet] at hp
      rcases List.mem_cons.mp hp with hp | hp
      · subst hp; exact le_refl _
      · have := ih (typeBlockEnd t cur + blockSpacing) p hp
        unfold typeBlockEnd at this
        omega

theorem borderAt_genTypeSheet (ts : List TypeTable) (cur : Nat)
    (h : ∀ t ∈ ts, t.data.length = t.data_rows ∧ t.specs.length + 2 ≤ t.total_cols ∧
      t.total_col_idx = t.specs.length + 2) (r c : Nat) :
    borderAt (genTypeSheet ts cur).1 r c =
      if goodCellT (genTypeSheet ts cur).2 r c then BSty.full else BSty.blank := by
  have hbs : blockSpacing = 2 := rfl
  induction ts generalizing cur with
  | nil =>
      simp only [genTypeSheet]
      rw [if_neg (goodCellT_nil r c)]
      rfl
  | cons t rest ih =>
      obtain ⟨hlen, hsc, htci⟩ := h t (by simp)
      simp only [genTypeSheet]
      by_cases hr : r ≤ cur + t.data_rows + 3
      · rw [borderAt_append_left]
        · rw [borderAt_renderTypeBlock t cur r c hlen hsc htci]
          have hrest : ¬ goodCellT (genTypeSheet rest (typeBlockEnd t cur + blockSpacing)).2 r c := by
            intro hg
            rcases hg with ⟨p, hp, hin, _⟩
            have := genTypeSheet_anchor_lb rest (typeBlockEnd t cur + blockSpacing) p hp
            unfold typeBlockEnd at this
            unfold inRectT at hin
            omega
          by_cases hg : inRectT t cur r c ∧ ¬(r = cur ∧ c ≠ 1)
          · rw [if_pos hg, if_pos ((goodCellT_cons _ _ _ _).mpr (Or.inl hg))]
          · rw [if_neg hg, if_neg]
            intro hgc
            rcases (goodCellT_cons _ _ _ _).mp hgc with hgc | hgc
            · exact hg hgc
            · exact hrest hgc
        · apply no_touch_of_row
          intro w hw
          have := genTypeSheet_write_lb rest (typeBlockEnd t cur + blockSpacing)
            (fun u hu => (h u (by simp [hu])).1) w hw
          unfold typeBlockEnd at this
          omega
      · rw [borderAt_append_right]
        · rw [ih (typeBlockEnd t cur + blockSpacing) (fun u hu => h u (by simp [hu]))]
          by_cases hg : goodCellT (genTypeSheet rest (typeBlockEnd t cur + blockSpacing)).2 r c
          · rw [if_pos hg, if_pos ((goodCellT_cons _ _ _ _).mpr (Or.inr hg))]
          · rw [if_neg hg, if_neg]
            intro hgc
            rcases (goodCellT_cons _ _ _ _).mp hgc with hgc | hgc
            · unfold inRectT typeBlockEnd at hgc
              dsimp only at hgc
              omega
            · exact hg hgc
        · apply no_touch_of_row
          intro w hw
          have := renderTypeBlock_row_bound t cur hlen w hw
          omega

theorem valAt_genTypeSheet_mem (ts : List TypeTable) (cur : Nat)
    (h : ∀ t ∈ ts, t.data.length = t.data_rows) :
    ∀ p ∈ (genTypeSheet ts cur).2, ∀ r c, p.2 ≤ r → r ≤ p.2 + p.1.data_rows + 2 →
      valAt (genTypeSheet ts cur).1 r c = valAt (renderTypeBlock p.1 p.2) r c := by
  induction ts generalizing cur with
  | nil => intro p hp; simp [genTypeSheet] at hp
  | cons t rest ih =>
      intro p hp r c hr1 hr2
      simp only [genTypeSheet] at hp ⊢
      rcases List.mem_cons.mp hp with hp | hp
      · subst hp
        dsimp only at hr1 hr2 ⊢
        rw [valAt_append_left]
        apply no_val_touch_of_row
        intro w hw
        have := genTypeSheet_write_lb rest (typeBlockEnd t cur + blockSpacing)
          (fun u hu => h u (by simp [hu])) w hw
        unfold typeBlockEnd at this
        have hbs : blockSpacing = 2 := rfl
        omega
      · have hlb := genTypeSheet_anchor_lb rest (typeBlockEnd t cur + blockSpacing) p hp
        rw [valAt_append_right]
        · exact ih (typeBlockEnd t cur + blockSpacing) (fun u hu => h u (by simp [hu])) p hp r c hr1 hr2
        · apply no_val_touch_of_row
          intro w hw
          have := renderTypeBlock_row_bound t cur (h t (by simp)) w hw
          unfold typeBlockEnd at hlb
          have hbs : blockSpacing = 2 := rfl
          omega

/-! ### Detail sheet pair packing -/

theorem formatBlankColumn_mem (s e ci : Nat) :
    ∀ w ∈ formatBlankColumn s e ci,
      (s ≤ wrRow w ∧ wrRow w ≤ e ∧ wrCol w = ci) ∧
      (∀ r' c' b', w = Wr.bor r' c' b' → b' = BSty.blank) ∧
      (∀ r c, isValAt r c w = false) := by
  intro w hw
  rcases List.mem_map.mp hw with ⟨rr, hrr, hw⟩
  have := List.mem_range'_1.mp hrr
  subst hw
  refine ⟨⟨by simp [wrRow]; omega, by simp [wrRow]; omega, by simp [wrCol]⟩, ?_, ?_⟩
  · intro r' c' b' he
    cases he
    rfl
  · intro r c
    rfl

theorem pairCleanup_mem (lw m : Nat) :
    ∀ w ∈ pairCleanup lw m,
      (m ≤ wrRow w ∧ wrRow w < m + blockSpacing ∧
        leftStartCol + lw + 1 ≤ wrCol w ∧ wrCol w < rightStartCol) ∧
      (∀ r' c' b', w = Wr.bor r' c' b' → b' = BSty.blank) ∧
      (∀ r c, isValAt r c w = false) := by
  intro w hw
  unfold pairCleanup at hw
  rcases List.mem_flatMap.mp hw with ⟨rr, hrr, hmem⟩
  have h1 := List.mem_range'_1.mp hrr
  have h2 := borRowSeg_row rr _ _ BSty.blank w hmem
  have h3 := borRowSeg_col rr _ _ BSty.blank w hmem
  have hlr : leftStartCol + lw + 1 + (rightStartCol - (leftStartCol + lw + 1)) ≤ rightStartCol := by
    have : rightStartCol = 12 := rfl
    omega
  refine ⟨⟨by omega, by omega, by omega, by omega⟩,
    borRowSeg_all_blank rr _ _ w hmem, borRowSeg_no_val rr _ _ BSty.blank w hmem⟩

theorem pairExtra_mem (lw m : Nat) (hlw : lw ≤ 10) :
    ∀ w ∈ pairExtra lw m,
      (m ≤ wrRow w ∧ wrRow w < m + blockSpacing ∧
        leftStartCol + lw ≤ wrCol w ∧ wrCol w < rightStartCol) ∧
      (∀ r' c' b', w = Wr.bor r' c' b' → b' = BSty.blank) ∧
      (∀ r c, isValAt r c w = false) := by
  intro w hw
  unfold pairExtra at hw
  have hbs : blockSpacing = 2 := rfl
  have hrs : rightStartCol = 12 := rfl
  have hls : leftStartCol = 1 := rfl
  rcases List.mem_append.mp hw with hw | hw
  · obtain ⟨⟨ha, hb, hc⟩, hd, he⟩ := formatBlankColumn_mem m m (leftStartCol + lw) w hw
    exact ⟨⟨by omega, by omega, by omega, by omega⟩, hd, he⟩
  · obtain ⟨⟨ha, hb, hc, hd⟩, he, hf⟩ := pairCleanup_mem lw m w hw
    exact ⟨⟨by omega, by omega, by omega, by omega⟩, he, hf⟩

theorem borderAt_pairExtra (lw m : Nat) (hlw : lw ≤ 10) (r c : Nat) :
    borderAt (pairExtra lw m) r c = BSty.blank :=
  borderAt_of_all_blank (fun w hw => (pairExtra_mem lw m hlw w hw).2.1) r c

theorem patternBlock_end (title : String) (s : PatternStruct) (a c0 : Nat) :
    (generateSinglePatternBlock title s a c0).2 = a + s.row_count + 2 := by
  simp only [generateSinglePatternBlock]
  omega

theorem packGroup_final_ge : ∀ (ps : List (String × PatternStruct)) (cur : Nat),
    cur ≤ (packGroup ps cur).2.2
  | [], cur => by simp [packGroup]
  | [p], cur => by
      simp only [packGroup, patternBlock_end]
      have hbs : blockSpacing = 2 := rfl
      omega
  | p :: q :: rest, cur => by
      have ih := packGroup_final_ge rest
        (max (generateSinglePatternBlock p.1 p.2 cur leftStartCol).2
          (generateSinglePatternBlock q.1 q.2 cur rightStartCol).2 + blockSpacing)
      simp only [packGroup]
      have h2 := patternBlock_end p.1 p.2 cur leftStartCol
      have hbs : blockSpacing = 2 := rfl
      omega

theorem PatternPhi.hlen {s : PatternStruct} (h : PatternPhi s) : s.data.length = s.row_count :=
  h.2.1

theorem PatternPhi.htci {s : PatternStruct} (h : PatternPhi s) :
    s.total_col_idx = min (s.spec_count + 2) s.total_cols := h.2.2.2.1

theorem PatternPhi.h6 {s : PatternStruct} (h : PatternPhi s) : 6 ≤ s.total_cols := by
  have := h.2.2.2.2.1
  have hm : minColumns = 6 := rfl
  have hx : maxColumns = 10 := rfl
  omega

theorem PatternPhi.h10 {s : PatternStruct} (h : PatternPhi s) : s.total_cols ≤ 10 := by
  have := h.2.2.2.2.1
  have hm : minColumns = 6 := rfl
  have hx : maxColumns = 10 := rfl
  omega

theorem PatternPhi.htci1 {s : PatternStruct} (h : PatternPhi s) : 1 ≤ s.total_col_idx := by
  have h1 := h.htci
  have h2 := h.h6
  omega

theorem packGroup_write_bounds :
    ∀ (ps : List (String × PatternStruct)) (cur : Nat),
      (∀ p ∈ ps, PatternPhi p.2) →
      ∀ w ∈ (packGroup ps cur).1, cur ≤ wrRow w ∧ wrRow w < (packGroup ps cur).2.2
  | [], cur => by intro _ w hw; simp [packGroup] at hw
  | [p], cur => by
      intro hphi w hw
      have hp := hphi p (by simp)
      have hbs : blockSpacing = 2 := rfl
      simp only [packGroup, patternBlock_end] at hw ⊢
      rcases List.mem_append.mp hw with hw | hw
      · have := patternBlock_row_bound p.1 p.2 cur leftStartCol hp.hlen w hw
        omega
      · obtain ⟨⟨h1, h2, _, _⟩, _, _⟩ :=
          pairExtra_mem p.2.total_cols (cur + p.2.row_count + 2) hp.h10 w hw
        omega
  | p :: q :: rest, cur => by
      intro hphi w hw
      have hp := hphi p (by simp)
      have hq := hphi q (by simp)
      have hbs : blockSpacing = 2 := rfl
      have hep := patternBlock_end p.1 p.2 cur leftStartCol
      have heq := patternBlock_end q.1 q.2 cur rightStartCol
      have hfin := packGroup_final_ge rest
        (max (generateSinglePatternBlock p.1 p.2 cur leftStartCol).2
          (generateSinglePatternBlock q.1 q.2 cur rightStartCol).2 + blockSpacing)
      simp only [packGroup] at hw ⊢
      rcases List.mem_append.mp hw with hw | hw
      · rcases List.mem_append.mp hw with hw | hw
        · rcases List.mem_append.mp hw with hw | hw
          · have := patternBlock_row_bound p.1 p.2 cur leftStartCol hp.hlen w hw
            omega
          · have := patternBlock_row_bound q.1 q.2 cur rightStartCol hq.hlen w hw
            omega
        · obtain ⟨⟨h1, h2, _, _⟩, _, _⟩ := pairExtra_mem p.2.total_cols
            (max (generateSinglePatternBlock p.1 p.2 cur leftStartCol).2
              (generateSinglePatternBlock q.1 q.2 cur rightStartCol).2) hp.h10 w hw
          omega
      · have := packGroup_write_bounds rest
          (max (generateSinglePatternBlock p.1 p.2 cur leftStartCol).2
            (generateSinglePatternBlock q.1 q.2 cur rightStartCol).2 + blockSpacing)
          (fun u hu => hphi u (by simp [hu])) w hw
        omega

theorem packGroup_placement_bounds :
    ∀ (ps : List (String × PatternStruct)) (cur : Nat),
      ∀ pl ∈ (packGroup ps cur).2.1,
        cur ≤ pl.2.1 ∧ patternBlockEnd pl.1.2 pl.2.1 + 2 ≤ (packGroup ps cur).2.2 ∧
          (pl.2.2 = leftStartCol ∨ pl.2.2 = rightStartCol)
  | [], cur => by intro pl hpl; simp [packGroup] at hpl
  | [p], cur => by
      intro pl hpl
      have hbs : blockSpacing = 2 := rfl
      simp only [packGroup, patternBlock_end] at hpl ⊢
      rcases List.mem_singleton.mp hpl with rfl
      unfold patternBlockEnd
      dsimp only
      exact ⟨le_refl _, by omega, Or.inl rfl⟩
  | p :: q :: rest, cur => by
      intro pl hpl
      have hbs : blockSpacing = 2 := rfl
      have hep := patternBlock_end p.1 p.2 cur leftStartCol
      have heq := patternBlock_end q.1 q.2 cur rightStartCol
      have hfin := packGroup_final_ge rest
        (max (generateSinglePatternBlock p.1 p.2 cur leftStartCol).2
          (generateSinglePatternBlock q.1 q.2 cur rightStartCol).2 + blockSpacing)
      simp only [packGroup] at hpl ⊢
      rcases List.mem_cons.mp hpl with rfl | hpl
      · unfold patternBlockEnd
        dsimp only
        exact ⟨le_refl _, by omega, Or.inl rfl⟩
      rcases List.mem_cons.mp hpl with rfl | hpl
      · unfold patternBlockEnd
        dsimp only
        exact ⟨le_refl _, by omega, Or.inr rfl⟩
      · have := packGroup_placement_bounds rest
          (max (generateSinglePatternBlock p.1 p.2 cur leftStartCol).2
            (generateSinglePatternBlock q.1 q.2 cur rightStartCol).2 + blockSpacing) pl hpl
        omega

theorem goodCellP_nil (r c : Nat) : ¬ goodCellP [] r c := by
  simp [goodCellP]

theorem goodCellP_cons (p : Placement) (pl : List Placement) (r c : Nat) :
    goodCellP (p :: pl) r c ↔
      (inRectP p.1.2 p.2.1 p.2.2 r c ∧ ¬(r = p.2.1 ∧ c ≠ p.2.2)) ∨ goodCellP pl r c := by
  simp [goodCellP]

theorem borderAt_packGroup :
    ∀ (ps : List (String × PatternStruct)) (cur : Nat),
      (∀ p ∈ ps, PatternPhi p.2) → ∀ r c,
      borderAt (packGroup ps cur).1 r c =
        if goodCellP (packGroup ps cur).2.1 r c then BSty.full else BSty.blank
  | [], cur => by
      intro _ r c
      simp only [packGroup]
      rw [if_neg (goodCellP_nil r c)]
      rfl
  | [p], cur => by
      intro hphi r c
      have hp := hphi p (by simp)
      have hbs : blockSpacing = 2 := rfl
      have hls : leftStartCol = 1 := rfl
      simp only [packGroup, patternBlock_end]
      rw [borderAt_append]
      split
      · rename_i htouch
        rcases List.any_eq_true.mp htouch with ⟨w, hw, hb⟩
        obtain ⟨⟨_, _, hc1, hc2⟩, _, _⟩ :=
          pairExtra_mem p.2.total_cols (cur + p.2.row_count + 2) hp.h10 w hw
        have hcc := isBorAt_col hb
        rw [borderAt_pairExtra _ _ hp.h10, if_neg]
        intro hg
        rcases (goodCellP_cons _ _ _ _).mp hg with ⟨hin, _⟩ | hg
        · unfold inRectP at hin
          dsimp only at hin
          have h6 := hp.h6
          omega
        · exact goodCellP_nil r c hg
      · rename_i htouch
        rw [borderAt_patternBlock p.1 p.2 cur leftStartCol r c hp.hlen hp.htci hp.h6]
        by_cases hg : inRectP p.2 cur leftStartCol r c ∧ ¬(r = cur ∧ c ≠ leftStartCol)
        · rw [if_pos hg, if_pos]
          exact (goodCellP_cons _ _ _ _).mpr (Or.inl hg)
        · rw [if_neg hg, if_neg]
          intro hgc
          rcases (goodCellP_cons _ _ _ _).mp hgc with hgc | hgc
          · exact hg hgc
          · exact goodCellP_nil r c hgc
  | p :: q :: rest, cur => by
      intro hphi r c
      have hp := hphi p (by simp)
      have hq := hphi q (by simp)
      have hbs : blockSpacing = 2 := rfl
      have hls : leftStartCol = 1 := rfl
      have hrs : rightStartCol = 12 := rfl
      have hep := patternBlock_end p.1 p.2 cur leftStartCol
      have heq := patternBlock_end q.1 q.2 cur rightStartCol
      have hfin := packGroup_final_ge rest
        (max (generateSinglePatternBlock p.1 p.2 cur leftStartCol).2
          (generateSinglePatternBlock q.1 q.2 cur rightStartCol).2 + blockSpacing)
      simp only [packGroup]
      set m := max (generateSinglePatternBlock p.1 p.2 cur leftStartCol).2
        (generateSinglePatternBlock q.1 q.2 cur rightStartCol).2 with hm
      by_cases hr : r < m + 2
      · -- the rest of the group does not touch this row
        rw [borderAt_append_left (no_touch_of_row (fun w hw => by
          have := packGroup_write_bounds rest (m + blockSpacing)
            (fun u hu => hphi u (by simp [hu])) w hw
          omega))]
        have hrestg : ¬ goodCellP (packGroup rest (m + blockSpacing)).2.1 r c := by
          intro hg
          rcases hg with ⟨pl, hpl, hin, _⟩
          have := packGroup_placement_bounds rest (m + blockSpacing) pl hpl
          unfold inRectP patternBlockEnd at hin this
          omega
        rw [borderAt_append]
        split
        · rename_i htouch
          rcases List.any_eq_true.mp htouch with ⟨w, hw, hb⟩
          obtain ⟨⟨_, _, hc1, hc2⟩, _, _⟩ := pairExtra_mem p.2.total_cols m hp.h10 w hw
          have hcc := isBorAt_col hb
          rw [borderAt_pairExtra _ _ hp.h10, if_neg]
          intro hg
          rcases (goodCellP_cons _ _ _ _).mp hg with ⟨hin, _⟩ | hg
          · unfold inRectP at hin
            dsimp only at hin
            have h6 := hp.h6
            have h10 := hp.h10
            omega
          rcases (goodCellP_cons _ _ _ _).mp hg with ⟨hin, _⟩ | hg
          · unfold inRectP at hin
            dsimp only at hin
            omega
          · exact hrestg hg
        · rename_i htouch
          rw [borderAt_append]
          split
          · rename_i htR
            rw [borderAt_patternBlock q.1 q.2 cur rightStartCol r c hq.hlen hq.htci hq.h6]
            rcases List.any_eq_true.mp htR with ⟨w, hw, hb⟩
            have hcc := isBorAt_col hb
            have hcb := patternBlock_col_bound q.1 q.2 cur rightStartCol
              (by have := hq.h6; omega) hq.htci1 w hw
            by_cases hg : inRectP q.2 cur rightStartCol r c ∧ ¬(r = cur ∧ c ≠ rightStartCol)
            · rw [if_pos hg, if_pos]
              apply (goodCellP_cons _ _ _ _).mpr
              right
              exact (goodCellP_cons _ _ _ _).mpr (Or.inl hg)
            · rw [if_neg hg, if_neg]
              intro hgc
              rcases (goodCellP_cons _ _ _ _).mp hgc with ⟨hin, _⟩ | hgc
              · unfold inRectP at hin
                dsimp only at hin
                have h10 := hp.h10
                omega
              rcases (goodCellP_cons _ _ _ _).mp hgc with hgc | hgc
              · exact hg hgc
              · exact hrestg hgc
          · rename_i htR
            rw [borderAt_patternBlock p.1 p.2 cur leftStartCol r c hp.hlen hp.htci hp.h6]
            have hqg : ¬ (inRectP q.2 cur rightStartCol r c ∧ ¬(r = cur ∧ c ≠ rightStartCol)) := by
              intro hg
              have := borderAt_patternBlock q.1 q.2 cur rightStartCol r c hq.hlen hq.htci hq.h6
              rw [if_pos hg] at this
              have hblank : borderAt (generateSinglePatternBlock q.1 q.2 cur rightStartCol).1 r c
                  = BSty.blank := by
                apply borderAt_of_no_touch
                intro w hw
                by_contra hcon
                exact htR (List.any_eq_true.mpr ⟨w, hw, by simpa using hcon⟩)
              rw [hblank] at this
              cases this
            by_cases hg : inRectP p.2 cur leftStartCol r c ∧ ¬(r = cur ∧ c ≠ leftStartCol)
            · rw [if_pos hg, if_pos]
              exact (goodCellP_cons _ _ _ _).mpr (Or.inl hg)
            · rw [if_neg hg, if_neg]
              intro hgc
              rcases (goodCellP_cons _ _ _ _).mp hgc with hgc | hgc
              · exact hg hgc
              rcases (goodCellP_cons _ _ _ _).mp hgc with hgc | hgc
              · exact hqg hgc
              · exact hrestg hgc
      · -- rows of the current pair are all above r
        rw [borderAt_append_right (fun w hw => ?_), borderAt_packGroup rest (m + blockSpacing)
          (fun u hu => hphi u (by simp [hu])) r c]
        · by_cases hg : goodCellP (packGroup rest (m + blockSpacing)).2.1 r c
          · rw [if_pos hg, if_pos]
            apply (goodCellP_cons _ _ _ _).mpr
            right
            exact (goodCellP_cons _ _ _ _).mpr (Or.inr hg)
          · rw [if_neg hg, if_neg]
            intro hgc
            rcases (goodCellP_cons _ _ _ _).mp hgc with ⟨hin, _⟩ | hgc
            · unfold inRectP patternBlockEnd at hin
              dsimp only at hin
              omega
            rcases (goodCellP_cons _ _ _ _).mp hgc with ⟨hin, _⟩ | hgc
            · unfold inRectP patternBlockEnd at hin
              dsimp only at hin
              omega
            · exact hg hgc
        · apply @no_touch_of_row _ _ ((generateSinglePatternBlock p.1 p.2 cur leftStartCol).1 ++
            (generateSinglePatternBlock q.1 q.2 cur rightStartCol).1 ++ pairExtra p.2.total_cols m)
            (fun w hw => ?_) w hw
          rcases List.mem_append.mp hw with hw2 | hw2
          · rcases List.mem_append.mp hw2 with hw3 | hw3
            · have := patternBlock_row_bound p.1 p.2 cur leftStartCol hp.hlen w hw3
              omega
            · have := patternBlock_row_bound q.1 q.2 cur rightStartCol hq.hlen w hw3
              omega
          · obtain ⟨⟨h1, h2, _, _⟩, _, _⟩ := pairExtra_mem p.2.total_cols m hp.h10 w hw2
            omega

theorem packGroups_final_ge (gs : List (List (String × PatternStruct))) (cur : Nat) :
    cur ≤ (packGroups gs cur).2.2 := by
  induction gs generalizing cur with
  | nil => simp [packGroups]
  | cons g rest ih =>
      simp only [packGroups]
      have h1 := packGroup_final_ge g cur
      have h2 := ih (packGroup g cur).2.2
      omega

theorem packGroups_write_bounds (gs : List (List (String × PatternStruct))) (cur : Nat)
    (hphi : ∀ g ∈ gs, ∀ p ∈ g, PatternPhi p.2) :
    ∀ w ∈ (packGroups gs cur).1, cur ≤ wrRow w ∧ wrRow w < (packGroups gs cur).2.2 := by
  induction gs generalizing cur with
  | nil => intro w hw; simp [packGroups] at hw
  | cons g rest ih =>
      intro w hw
      simp only [packGroups] at hw ⊢
      have h1 := packGroup_final_ge g cur
      have h2 := packGroups_final_ge rest (packGroup g cur).2.2
      rcases List.mem_append.mp hw with hw | hw
      · have := packGroup_write_bounds g cur (hphi g (by simp)) w hw
        omega
      · have := ih (packGroup g cur).2.2 (fun u hu => hphi u (by simp [hu])) w hw
        omega

theorem packGroups_placement_bounds (gs : List (List (String × PatternStruct))) (cur : Nat) :
    ∀ pl ∈ (packGroups gs cur).2.1,
      cur ≤ pl.2.1 ∧ patternBlockEnd pl.1.2 pl.2.1 + 2 ≤ (packGroups gs cur).2.2 ∧
        (pl.2.2 = leftStartCol ∨ pl.2.2 = rightStartCol) := by
  induction gs generalizing cur with
  | nil => intro pl hpl; simp [packGroups] at hpl
  | cons g rest ih =>
      intro pl hpl
      simp only [packGroups] at hpl ⊢
      have h1 := packGroup_final_ge g cur
      have h2 := packGroups_final_ge rest (packGroup g cur).2.2
      rcases List.mem_append.mp hpl with hpl | hpl
      · have := packGroup_placement_bounds g cur pl hpl
        omega
      · have := ih (packGroup g cur).2.2 pl hpl
        omega

theorem goodCellP_append (pl1 pl2 : List Placement) (r c : Nat) :
    goodCellP (pl1 ++ pl2) r c ↔ goodCellP pl1 r c ∨ goodCellP pl2 r c := by
  unfold goodCellP
  constructor
  · rintro ⟨p, hp, hx⟩
    rcases List.mem_append.mp hp with hp | hp
    · exact Or.inl ⟨p, hp, hx⟩
    · exact Or.inr ⟨p, hp, hx⟩
  · rintro (⟨p, hp, hx⟩ | ⟨p, hp, hx⟩)
    · exact ⟨p, List.mem_append.mpr (Or.inl hp), hx⟩
    · exact ⟨p, List.mem_append.mpr (Or.inr hp), hx⟩

theorem borderAt_packGroups (gs : List (List (String × PatternStruct))) (cur : Nat)
    (hphi : ∀ g ∈ gs, ∀ p ∈ g, PatternPhi p.2) (r c : Nat) :
    borderAt (packGroups gs cur).1 r c =
      if goodCellP (packGroups gs cur).2.1 r c then BSty.full else BSty.blank := by
  induction gs generalizing cur with
  | nil =>
      simp only [packGroups]
      rw [if_neg (goodCellP_nil r c)]
      rfl
  | cons g rest ih =>
      simp only [packGroups]
      by_cases hr : r < (packGroup g cur).2.2
      · rw [borderAt_append_left (no_touch_of_row (fun w hw => by
          have := packGroups_write_bounds rest (packGroup g cur).2.2
            (fun u hu => hphi u (by simp [hu])) w hw
          omega))]
        rw [borderAt_packGroup g cur (hphi g (by simp)) r c]
        have hrest : ¬ goodCellP (packGroups rest (packGroup g cur).2.2).2.1 r c := by
          intro hg
          rcases hg with ⟨pl, hpl, hin, _⟩
          have := packGroups_placement_bounds rest (packGroup g cur).2.2 pl hpl
          unfold inRectP patternBlockEnd at hin this
          omega
        by_cases hg : goodCellP (packGroup g cur).2.1 r c
        · rw [if_pos hg, if_pos ((goodCellP_append _ _ _ _).mpr (Or.inl hg))]
        · rw [if_neg hg, if_neg]
          intro hgc
          rcases (goodCellP_append _ _ _ _).mp hgc with hgc | hgc
          · exact hg hgc
          · exact hrest hgc
      · rw [borderAt_append_right (no_touch_of_row (fun w hw => by
          have := packGroup_write_bounds g cur (hphi g (by simp)) w hw
          omega))]
        rw [ih (packGroup g cur).2.2 (fun u hu => hphi u (by simp [hu]))]
        have hgg : ¬ goodCellP (packGroup g cur).2.1 r c := by
          intro hg
          rcases hg with ⟨pl, hpl, hin, _⟩
          have := packGroup_placement_bounds g cur pl hpl
          unfold inRectP patternBlockEnd at hin this
          omega
        by_cases hg : goodCellP (packGroups rest (packGroup g cur).2.2).2.1 r c
        · rw [if_pos hg, if_pos ((goodCellP_append _ _ _ _).mpr (Or.inr hg))]
        · rw [if_neg hg, if_neg]
          intro hgc
          rcases (goodCellP_append _ _ _ _).mp hgc with hgc | hgc
          · exact hgg hgc
          · exact hg hgc

theorem no_touch_of_col {r c : Nat} {ws : List Wr} (h : ∀ w ∈ ws, wrCol w ≠ c) :
    ∀ w ∈ ws, isBorAt r c w = false := by
  intro w hw
  by_contra hc
  exact h w hw (isBorAt_col (by simpa using hc))

theorem no_val_touch_of_col {r c : Nat} {ws : List Wr} (h : ∀ w ∈ ws, wrCol w ≠ c) :
    ∀ w ∈ ws, isValAt r c w = false := by
  intro w hw
  by_contra hc
  exact h w hw (isValAt_col (by simpa using hc))

theorem mem_insertLe {α : Type} {le : α → α → Bool} {x y : α} :
    ∀ {l : List α}, y ∈ insertLe le x l → y = x ∨ y ∈ l
  | [], h => by simpa [insertLe] using h
  | z :: zs, h => by
      unfold insertLe at h
      split at h
      · rcases List.mem_cons.mp h with h | h
        · exact Or.inl h
        · exact Or.inr h
      · rcases List.mem_cons.mp h with h | h
        · exact Or.inr (by simp [h])
        · rcases mem_insertLe h with h | h
          · exact Or.inl h
          · exact Or.inr (by simp [h])

theorem mem_sortLe {α : Type} {le : α → α → Bool} {y : α} :
    ∀ {l : List α}, y ∈ sortLe le l → y ∈ l
  | [], h => by simpa [sortLe] using h
  | x :: xs, h => by
      unfold sortLe at h
      rcases mem_insertLe h with h | h
      · simp [h]
      · exact List.mem_cons.mpr (Or.inr (mem_sortLe h))

theorem generateTypePatternSheet_phi (tn date : String) (g : List Record) :
    ∀ band ∈ (groupByColumnRange (sortPatternsByColumns
        ((uniqueSorted (g.map (·.pattern))).map
          (fun n => (n, getPatternTableStructure (g.filter (fun r => r.pattern == n))))))).map
      (List.map (fun p => (tn ++ " - " ++ p.1 ++ " - " ++ date, p.2))),
    ∀ p ∈ band, PatternPhi p.2 := by
  intro band hband p hp
  rcases List.mem_map.mp hband with ⟨band0, hband0, rfl⟩
  rcases List.mem_map.mp hp with ⟨p0, hp0, rfl⟩
  have hp0' : p0 ∈ sortPatternsByColumns ((uniqueSorted (g.map (·.pattern))).map
      (fun n => (n, getPatternTableStructure (g.filter (fun r => r.pattern == n))))) := by
    unfold groupByColumnRange at hband0
    rcases List.mem_filter.mp hband0 with ⟨hmem, _⟩
    rcases List.mem_cons.mp hmem with rfl | hmem
    · exact (List.mem_filter.mp hp0).1
    rcases List.mem_cons.mp hmem with rfl | hmem
    · exact (List.mem_filter.mp hp0).1
    · simp at hmem
  have hp0'' := mem_sortLe hp0'
  rcases List.mem_map.mp hp0'' with ⟨n, _, rfl⟩
  exact getPatternTableStructure_phi _

theorem borderAt_generateTypePatternSheet (tn date : String) (g : List Record) (r c : Nat) :
    borderAt (generateTypePatternSheet tn date g).1 r c =
      if goodCellP (generateTypePatternSheet tn date g).2 r c then BSty.full else BSty.blank := by
  unfold generateTypePatternSheet
  exact borderAt_packGroups _ 1 (generateTypePatternSheet_phi tn date g) r c

/-! ### Rectangle disjointness -/

theorem genTypeSheet_disjoint (ts : List TypeTable) (cur : Nat) :
    List.Pairwise rectDisjoint ((genTypeSheet ts cur).2.map rectOfT) := by
  induction ts generalizing cur with
  | nil => simp [genTypeSheet]
  | cons t rest ih =>
      simp only [genTypeSheet, List.map_cons]
      constructor
      · intro y hy
        rcases List.mem_map.mp hy with ⟨pl, hpl, rfl⟩
        have := genTypeSheet_anchor_lb rest (typeBlockEnd t cur + blockSpacing) pl hpl
        unfold rectDisjoint rectOfT
        have hbs : blockSpacing = 2 := rfl
        left
        dsimp only
        unfold typeBlockEnd at this ⊢
        omega
      · exact ih (typeBlockEnd t cur + blockSpacing)

theorem packGroup_disjoint :
    ∀ (ps : List (String × PatternStruct)) (cur : Nat),
      (∀ p ∈ ps, PatternPhi p.2) →
      List.Pairwise rectDisjoint ((packGroup ps cur).2.1.map rectOfP)
  | [], cur => by intro _; simp [packGroup]
  | [p], cur => by intro _; simp [packGroup]
  | p :: q :: rest, cur => by
      intro hphi
      have hp := hphi p (by simp)
      have hq := hphi q (by simp)
      have hbs : blockSpacing = 2 := rfl
      have hls : leftStartCol = 1 := rfl
      have hrs : rightStartCol = 12 := rfl
      have hep := patternBlock_end p.1 p.2 cur leftStartCol
      have heq := patternBlock_end q.1 q.2 cur rightStartCol
      simp only [packGroup, List.map_cons]
      set m := max (generateSinglePatternBlock p.1 p.2 cur leftStartCol).2
        (generateSinglePatternBlock q.1 q.2 cur rightStartCol).2 with hm
      constructor
      · intro y hy
        rcases List.mem_cons.mp hy with rfl | hy
        · unfold rectDisjoint rectOfP
          dsimp only
          have h10 := hp.h10
          right; right; left
          omega
        · rcases List.mem_map.mp hy with ⟨pl, hpl, rfl⟩
          have := packGroup_placement_bounds rest (m + blockSpacing) pl hpl
          unfold rectDisjoint rectOfP
          dsimp only
          left
          unfold patternBlockEnd at this ⊢
          omega
      constructor
      · intro y hy
        rcases List.mem_map.mp hy with ⟨pl, hpl, rfl⟩
        have := packGroup_placement_bounds rest (m + blockSpacing) pl hpl
        unfold rectDisjoint rectOfP
        dsimp only
        left
        unfold patternBlockEnd at this ⊢
        omega
      · exact packGroup_disjoint rest (m + blockSpacing) (fun u hu => hphi u (by simp [hu]))

theorem packGroups_disjoint (gs : List (List (String × PatternStruct))) (cur : Nat)
    (hphi : ∀ g ∈ gs, ∀ p ∈ g, PatternPhi p.2) :
    List.Pairwise rectDisjoint ((packGroups gs cur).2.1.map rectOfP) := by
  induction gs generalizing cur with
  | nil => simp [packGroups]
  | cons g rest ih =>
      simp only [packGroups, List.map_append]
      rw [List.pairwise_append]
      refine ⟨?_, ih (packGroup g cur).2.2 (fun u hu => hphi u (by simp [hu])), ?_⟩
      · have := packGroup_disjoint g cur (hphi g (by simp))
        exact this
      · intro x hx y hy
        rcases List.mem_map.mp hx with ⟨plx, hplx, rfl⟩
        rcases List.mem_map.mp hy with ⟨ply, hply, rfl⟩
        have h1 := packGroup_placement_bounds g cur plx hplx
        have h2 := packGroups_placement_bounds rest (packGroup g cur).2.2 ply hply
        unfold rectDisjoint rectOfP
        left
        dsimp only
        unfold patternBlockEnd at h1 h2 ⊢
        omega

/-! ### Value lookups inside placed blocks -/

theorem valAt_packGroup_mem :
    ∀ (ps : List (String × PatternStruct)) (cur : Nat),
      (∀ p ∈ ps, PatternPhi p.2) →
      ∀ pl ∈ (packGroup ps cur).2.1, ∀ r c,
        pl.2.1 ≤ r → r ≤ patternBlockEnd pl.1.2 pl.2.1 →
        pl.2.2 ≤ c → c ≤ pl.2.2 + pl.1.2.total_cols - 1 →
        valAt (packGroup ps cur).1 r c =
          valAt (generateSinglePatternBlock pl.1.1 pl.1.2 pl.2.1 pl.2.2).1 r c
  | [], cur => by intro _ pl hpl; simp [packGroup] at hpl
  | [p], cur => by
      intro hphi pl hpl r c h1 h2 h3 h4
      have hp := hphi p (by simp)
      simp only [packGroup] at hpl ⊢
      rcases List.mem_singleton.mp hpl with rfl
      dsimp only at h1 h2 h3 h4 ⊢
      rw [valAt_append_left]
      intro w hw
      exact (pairExtra_mem p.2.total_cols _ hp.h10 w hw).2.2 r c
  | p :: q :: rest, cur => by
      intro hphi pl hpl r c h1 h2 h3 h4
      have hp := hphi p (by simp)
      have hq := hphi q (by simp)
      have hbs : blockSpacing = 2 := rfl
      have hls : leftStartCol = 1 := rfl
      have hrs : rightStartCol = 12 := rfl
      have hep := patternBlock_end p.1 p.2 cur leftStartCol
      have heq := patternBlock_end q.1 q.2 cur rightStartCol
      simp only [packGroup] at hpl ⊢
      set m := max (generateSinglePatternBlock p.1 p.2 cur leftStartCol).2
        (generateSinglePatternBlock q.1 q.2 cur rightStartCol).2 with hm
      rcases List.mem_cons.mp hpl with rfl | hpl
      · dsimp only at h1 h2 h3 h4 ⊢
        unfold patternBlockEnd at h2
        rw [valAt_append_left (no_val_touch_of_row (fun w hw => by
          have := packGroup_write_bounds rest (m + blockSpacing)
            (fun u hu => hphi u (by simp [hu])) w hw
          omega))]
        rw [valAt_append_left (fun w hw => (pairExtra_mem p.2.total_cols m hp.h10 w hw).2.2 r c)]
        rw [valAt_append_left (no_val_touch_of_col (fun w hw => by
          have := patternBlock_col_bound q.1 q.2 cur rightStartCol
            (by have := hq.h6; omega) hq.htci1 w hw
          have h10 := hp.h10
          omega))]
      rcases List.mem_cons.mp hpl with rfl | hpl
      · dsimp only at h1 h2 h3 h4 ⊢
        unfold patternBlockEnd at h2
        rw [valAt_append_left (no_val_touch_of_row (fun w hw => by
          have := packGroup_write_bounds rest (m + blockSpacing)
            (fun u hu => hphi u (by simp [hu])) w hw
          omega))]
        rw [valAt_append_left (fun w hw => (pairExtra_mem p.2.total_cols m hp.h10 w hw).2.2 r c)]
        rw [valAt_append_right (no_val_touch_of_col (fun w hw => by
          have := patternBlock_col_bound p.1 p.2 cur leftStartCol
            (by have := hp.h6; omega) hp.htci1 w hw
          have h10 := hp.h10
          have h6q := hq.h6
          omega))]
      · have hbnd := packGroup_placement_bounds rest (m + blockSpacing) pl hpl
        rw [valAt_append_right (no_val_touch_of_row (fun w hw => by
          rcases List.mem_append.mp hw with hw2 | hw2
          · rcases List.mem_append.mp hw2 with hw3 | hw3
            · have := patternBlock_row_bound p.1 p.2 cur leftStartCol hp.hlen w hw3
              omega
            · have := patternBlock_row_bound q.1 q.2 cur rightStartCol hq.hlen w hw3
              omega
          · obtain ⟨⟨ha, hb, _, _⟩, _, _⟩ := pairExtra_mem p.2.total_cols m hp.h10 w hw2
            omega))]
        exact valAt_packGroup_mem rest (m + blockSpacing)
          (fun u hu => hphi u (by simp [hu])) pl hpl r c h1 h2 h3 h4

theorem valAt_packGroups_mem (gs : List (List (String × PatternStruct))) (cur : Nat)
    (hphi : ∀ g ∈ gs, ∀ p ∈ g, PatternPhi p.2) :
    ∀ pl ∈ (packGroups gs cur).2.1, ∀ r c,
      pl.2.1 ≤ r → r ≤ patternBlockEnd pl.1.2 pl.2.1 →
      pl.2.2 ≤ c → c ≤ pl.2.2 + pl.1.2.total_cols - 1 →
      valAt (packGroups gs cur).1 r c =
        valAt (generateSinglePatternBlock pl.1.1 pl.1.2 pl.2.1 pl.2.2).1 r c := by
  induction gs generalizing cur with
  | nil => intro pl hpl; simp [packGroups] at hpl
  | cons g rest ih =>
      intro pl hpl r c h1 h2 h3 h4
      simp only [packGroups] at hpl ⊢
      rcases List.mem_append.mp hpl with hpl | hpl
      · have hbnd := packGroup_placement_bounds g cur pl hpl
        rw [valAt_append_left (no_val_touch_of_row (fun w hw => by
          have := packGroups_write_bounds rest (packGroup g cur).2.2
            (fun u hu => hphi u (by simp [hu])) w hw
          unfold patternBlockEnd at h2 hbnd
          omega))]
        exact valAt_packGroup_mem g cur (hphi g (by simp)) pl hpl r c h1 h2 h3 h4
      · have hbnd := packGroups_placement_bounds rest (packGroup g cur).2.2 pl hpl
        rw [valAt_append_right (no_val_touch_of_row (fun w hw => by
          have := packGroup_write_bounds g cur (hphi g (by simp)) w hw
          omega))]
        exact ih (packGroup g cur).2.2 (fun u hu => hphi u (by simp [hu])) pl hpl r c h1 h2 h3 h4

/-! ### Sortedness of the comparators in use -/

theorem chainB_tail {α : Type} {le : α → α → Bool} {y : α} {l : List α}
    (h : chainB le (y :: l) = true) : chainB le l = true := by
  cases l with
  | nil => rfl
  | cons z zs =>
      have : (le y z && chainB le (z :: zs)) = true := h
      exact (Bool.and_eq_true_iff.mp this).2

theorem chainB_cons_of {α : Type} {le : α → α → Bool} {y : α} {l : List α}
    (hhead : ∀ z, l.head? = some z → le y z = true) (hl : chainB le l = true) :
    chainB le (y :: l) = true := by
  cases l with
  | nil => rfl
  | cons z zs =>
      show (le y z && chainB le (z :: zs)) = true
      rw [hhead z rfl, hl]
      rfl

theorem chainB_head {α : Type} {le : α → α → Bool} {y z : α} {zs : List α}
    (h : chainB le (y :: z :: zs) = true) : le y z = true := by
  have : (le y z && chainB le (z :: zs)) = true := h
  exact (Bool.and_eq_true_iff.mp this).1

theorem insertLe_head {α : Type} (le : α → α → Bool) (x : α) :
    ∀ l : List α, (insertLe le x l).head? = some x ∨ (insertLe le x l).head? = l.head?
  | [] => Or.inl rfl
  | y :: ys => by
      unfold insertLe
      split
      · exact Or.inl rfl
      · exact Or.inr rfl

theorem chainB_insertLe {α : Type} {le : α → α → Bool}
    (htot : ∀ a b, le a b = true ∨ le b a = true) (x : α) :
    ∀ {l : List α}, chainB le l = true → chainB le (insertLe le x l) = true
  | [], _ => rfl
  | y :: ys, h => by
      unfold insertLe
      split
      · rename_i hxy
        show (le x y && chainB le (y :: ys)) = true
        rw [hxy, h]
        rfl
      · rename_i hxy
        have hyx : le y x = true := by
          rcases htot x y with ht | ht
          · exact absurd ht hxy
          · exact ht
        apply chainB_cons_of
        · intro z hz
          rcases insertLe_head le x ys with he | he
          · rw [he] at hz
            cases hz
            exact hyx
          · rw [he] at hz
            cases ys with
            | nil => cases hz
            | cons w ws =>
                cases hz
                exact chainB_head h
        · exact chainB_insertLe htot x (chainB_tail h)

theorem chainB_sortLe {α : Type} {le : α → α → Bool}
    (htot : ∀ a b, le a b = true ∨ le b a = true) :
    ∀ l : List α, chainB le (sortLe le l) = true
  | [] => rfl
  | x :: xs => chainB_insertLe htot x (chainB_sortLe htot xs)

theorem charListLt_asymm :
    ∀ {x y : List Char}, charListLt x y = true → charListLt y x = false
  | [], [], h => by simp [charListLt] at h
  | [], _ :: _, _ => rfl
  | _ :: _, [], h => by simp [charListLt] at h
  | a :: as, b :: bs, h => by
      simp only [charListLt, Bool.or_eq_true, Bool.and_eq_true, beq_iff_eq,
        decide_eq_true_eq] at h
      simp only [charListLt, Bool.or_eq_false_iff, Bool.and_eq_false_iff]
      rcases h with h | ⟨h1, h2⟩
      · constructor
        · simpa using by omega
        · left
          simpa using by omega
      · constructor
        · simpa using by omega
        · right
          exact charListLt_asymm h2

theorem strLe_total (a b : String) : strLe a b = true ∨ strLe b a = true := by
  unfold strLe pyStrLt
  by_cases h : charListLt b.data a.data = true
  · right
    rw [charListLt_asymm h]
    rfl
  · left
    rw [Bool.not_eq_true] at h
    rw [h]
    rfl

theorem decLe_total (a b : Int × Nat) : decLe a b = true ∨ decLe b a = true := by
  unfold decLe
  rcases Int.le_total (a.1 * (10 : Int) ^ b.2) (b.1 * (10 : Int) ^ a.2) with h | h
  · left; exact decide_eq_true h
  · right; exact decide_eq_true h

theorem chainB_map {α β : Type} (f : α → β) (le : β → β → Bool) :
    ∀ l : List α, chainB (fun a b => le (f a) (f b)) l = chainB le (l.map f)
  | [] => rfl
  | [_] => rfl
  | x :: y :: r => by
      show (le (f x) (f y) && _) = (le (f x) (f y) && _)
      rw [chainB_map f le (y :: r)]
      rfl

/-! ### Placement layout equalities -/

theorem packGroup_placements_eq :
    ∀ (ps : List (String × PatternStruct)) (cur : Nat),
      (packGroup ps cur).2.1 = claimPairLayout ps cur
  | [], cur => rfl
  | [p], cur => rfl
  | p :: q :: rest, cur => by
      simp only [packGroup, claimPairLayout]
      rw [packGroup_placements_eq rest]

theorem packGroup_final_eq :
    ∀ (ps : List (String × PatternStruct)) (cur : Nat),
      (packGroup ps cur).2.2 = claimPairEnd ps cur
  | [], cur => rfl
  | [p], cur => rfl
  | p :: q :: rest, cur => by
      simp only [packGroup, claimPairEnd]
      rw [packGroup_final_eq rest]

theorem packGroup_placements_length :
    ∀ (ps : List (String × PatternStruct)) (cur : Nat),
      (packGroup ps cur).2.1.length = ps.length
  | [], cur => rfl
  | [p], cur => rfl
  | p :: q :: rest, cur => by
      simp only [packGroup, List.length_cons]
      rw [packGroup_placements_length rest]

theorem packGroups_placements_eq (gs : List (List (String × PatternStruct))) (cur : Nat) :
    (packGroups gs cur).2.1 = claimBandsLayout gs cur := by
  induction gs generalizing cur with
  | nil => rfl
  | cons g rest ih =>
      simp only [packGroups, claimBandsLayout]
      rw [packGroup_placements_eq, ih, packGroup_final_eq]

theorem genTypeSheet_placements_eq (ts : List TypeTable) (cur : Nat) :
    (genTypeSheet ts cur).2 = claimStackLayout ts cur := by
  induction ts generalizing cur with
  | nil => rfl
  | cons t rest ih =>
      simp only [genTypeSheet, claimStackLayout]
      rw [ih]

/-! ### Data cell contents -/

theorem typeRow_total_cell (g : List Record) (specs : List String) (hl : Nat) (color : String) :
    (typeRow g specs hl color).getD (specs.length + 1) (Cell.s "") =
      Cell.n ((specs.map (fun sp => colQty g color sp)).foldl (· + ·) 0) := by
  unfold typeRow
  have hlen : (Cell.s color :: ((specs.map (fun sp => colQty g color sp)).map Cell.n ++
      [Cell.n ((specs.map (fun sp => colQty g color sp)).foldl (· + ·) 0)])).length =
      specs.length + 2 := by
    simp [List.length_append, List.length_map]
  rw [List.getD_append _ _ _ _ (by rw [hlen]; omega)]
  show ((specs.map (fun sp => colQty g color sp)).map Cell.n ++
      [Cell.n _]).getD specs.length (Cell.s "") = _
  rw [List.getD_eq_getElem?_getD, List.getElem?_append_right (by simp)]
  simp

theorem patternRow_getD_n (g : List Record) (specs : List String) (tc : Nat) (color : String)
    (k : Nat) (h1 : 1 ≤ k) (h2 : k ≤ specs.length + 1) (h3 : k < tc) :
    ∃ v : Int, (patternRow g specs tc color).getD k (Cell.s "") = Cell.n v := by
  unfold patternRow
  have hlen : (Cell.s color :: ((specs.map (fun sp => colQty g color sp)).map Cell.n ++
      [Cell.n ((specs.map (fun sp => colQty g color sp)).foldl (· + ·) 0)])).length =
      specs.length + 2 := by
    simp [List.length_append, List.length_map]
  rw [List.getD_append _ _ _ _ (by rw [List.length_take, hlen]; omega)]
  rw [List.getD_eq_getElem?_getD, List.getElem?_take_of_lt h3]
  rcases Nat.exists_eq_add_of_le h1 with ⟨k2, rfl⟩
  rw [Nat.add_comm 1 k2, List.getElem?_cons_succ]
  by_cases hk : k2 < specs.length
  · rw [List.getElem?_append_left (by simp; omega)]
    rcases List.getElem?_eq_some_iff.mpr
        ⟨(by simp; exact hk :
          k2 < ((specs.map (fun sp => colQty g color sp)).map Cell.n).length), rfl⟩ with h
    refine ⟨((specs.map (fun sp => colQty g color sp)).getD k2 0), ?_⟩
    rw [List.getElem?_map]
    have : (specs.map (fun sp => colQty g color sp))[k2]? =
        some ((specs.map (fun sp => colQty g color sp)).getD k2 0) := by
      rw [List.getD_eq_getElem?_getD]
      rcases List.getElem?_eq_some_iff.mpr
        ⟨(by simp; exact hk : k2 < (specs.map (fun sp => colQty g color sp)).length), rfl⟩ with _
      have hlt : k2 < (specs.map (fun sp => colQty g color sp)).length := by simp; exact hk
      rw [List.getElem?_eq_getElem hlt]
      rfl
    rw [this]
    rfl
  · have hk2 : k2 = specs.length := by omega
    subst hk2
    rw [List.getElem?_append_right (by simp)]
    refine ⟨(specs.map (fun sp => colQty g color sp)).foldl (· + ·) 0, ?_⟩
    simp

/-! ### Error path of standardization -/

theorem firstMissingField_isSome (cols : List String) :
    ∀ (l : List (String × List String)) (f : String × List String),
      f ∈ l → fieldMatched cols f.2 = false →
      ∃ p, firstMissingField cols l = some p := by
  intro l
  induction l with
  | nil => intro f hf; simp at hf
  | cons hd rest ih =>
      intro f hf hmiss
      unfold firstMissingField
      by_cases hm : fieldMatched cols hd.2 = true
      · rw [if_pos hm]
        rcases List.mem_cons.mp hf with rfl | hf
        · rw [hmiss] at hm
          cases hm
        · exact ih f hf hmiss
      · rw [if_neg hm]
        exact ⟨hd, by cases hd; rfl⟩

theorem generate_error_of_missing (df : PyDF) (date : String)
    (f : String × List String) (hf : f ∈ fieldMapping)
    (hmiss : fieldMatched df.cols f.2 = false) :
    (∃ m, generate df date = Except.error m) ∧ ∀ wb, generate df date ≠ Except.ok wb := by
  rcases firstMissingField_isSome df.cols fieldMapping f hf hmiss with ⟨p, hp⟩
  have hstd : ∃ m, standardize df = Except.error m := by
    unfold standardize
    rw [hp]
    exact ⟨_, rfl⟩
  rcases hstd with ⟨m, hm⟩
  refine ⟨⟨m, ?_⟩, ?_⟩
  · unfold generate
    rw [hm]
  · intro wb hwb
    unfold generate at hwb
    rw [hm] at hwb
    cases hwb

/-! ### Row footprint of a block -/

theorem eq_full_iff {x : BSty} {p : Prop} [Decidable p]
    (h : x = if p then BSty.full else BSty.blank) : x = BSty.full ↔ p := by
  split at h
  · subst h
    rename_i hp
    simp [hp]
  · subst h
    rename_i hp
    constructor
    · intro hb
      cases hb
    · intro hx
      exact absurd hx hp

theorem isValAt_isInk {r c : Nat} {w : Wr} (h : isValAt r c w = true) : isInk w = true := by
  cases w with
  | val => rfl
  | bor => simp [isValAt] at h

theorem rowsSeg_not_ink (r0 k c0 n : Nat) :
    ∀ w ∈ (List.range' r0 k).flatMap (fun rr => borRowSeg rr c0 n BSty.blank),
      isInk w = false := by
  intro w hw
  rcases List.mem_flatMap.mp hw with ⟨rr, _, hmem⟩
  rcases List.mem_map.mp hmem with ⟨cc, _, rfl⟩
  rfl

theorem rowInked_iff (ws : List Wr) (r : Nat) :
    rowInked ws r = true ↔ ∃ w ∈ ws, isInk w = true ∧ wrRow w = r := by
  unfold rowInked
  rw [List.any_eq_true]
  constructor
  · rintro ⟨w, hw, hx⟩
    rw [Bool.and_eq_true_iff] at hx
    exact ⟨w, hw, hx.1, by simpa using hx.2⟩
  · rintro ⟨w, hw, h1, h2⟩
    exact ⟨w, hw, by rw [Bool.and_eq_true_iff]; exact ⟨h1, by simpa using h2⟩⟩

theorem renderTypeBlock_inked (t : TypeTable) (a : Nat)
    (hlen : t.data.length = t.data_rows) (h1 : 1 ≤ t.total_cols) (r : Nat) :
    rowInked (renderTypeBlock t a) r = true ↔ a ≤ r ∧ r ≤ a + t.data_rows + 2 := by
  have e1 : a + 1 + 1 + t.data_rows - 1 = a + t.data_rows + 1 := by omega
  rw [rowInked_iff]
  constructor
  · rintro ⟨w, hw, hink, hrow⟩
    simp only [renderTypeBlock, ← List.append_assoc, e1, List.mem_append] at hw
    rcases hw with ((((((hw | hw) | hw) | hw) | hw) | hw) | hw) | hw
    · rcases List.mem_cons.mp hw with hw | hw
      · subst hw; simp only [wrRow] at hrow; omega
      rcases List.mem_cons.mp hw with hw | hw
      · subst hw; simp only [wrRow] at hrow; omega
      · simp at hw
    · have := rowSeg_row _ _ _ _ _ w hw; omega
    · have := dataSeg_row _ _ _ _ w hw; rw [hlen] at this; omega
    · rcases List.mem_cons.mp hw with hw | hw
      · subst hw; simp only [wrRow] at hrow; omega
      rcases List.mem_cons.mp hw with hw | hw
      · subst hw; simp only [wrRow] at hrow; omega
      · simp at hw
    · have := rowSeg_row _ _ _ _ _ w hw; omega
    · rcases List.mem_cons.mp hw with hw | hw
      · subst hw; simp only [wrRow] at hrow; omega
      rcases List.mem_cons.mp hw with hw | hw
      · subst hw; simp only [wrRow] at hrow; omega
      · simp at hw
    · have := filtSeg_row _ _ _ _ _ w hw; omega
    · rw [rowsSeg_not_ink _ _ _ _ w hw] at hink
      cases hink
  · rintro ⟨hr1, hr2⟩
    simp only [renderTypeBlock, ← List.append_assoc, e1]
    by_cases hra : r = a
    · subst hra
      refine ⟨Wr.val r 1 (Cell.s t.title), ?_, rfl, rfl⟩
      simp only [List.mem_append]
      exact Or.inl (Or.inl (Or.inl (Or.inl (Or.inl (Or.inl (Or.inl (by simp)))))))
    by_cases hrh : r = a + 1
    · rcases List.any_eq_true.mp ((rowSeg_any_val (a + 1) 1 t.total_cols
          (fun c => Cell.s (t.headers.getD (c - 1) "")) BSty.full r 1).mpr
          ⟨hrh, by omega, by omega⟩) with ⟨w, hw, hv⟩
      refine ⟨w, ?_, isValAt_isInk hv, isValAt_row hv⟩
      simp only [List.mem_append]
      exact Or.inl (Or.inl (Or.inl (Or.inl (Or.inl (Or.inl (Or.inr hw))))))
    by_cases hrt : r = a + t.data_rows + 2
    · refine ⟨Wr.val r 1 (Cell.s "合计"), ?_, rfl, rfl⟩
      simp only [List.mem_append]
      refine Or.inl (Or.inl (Or.inl (Or.inl (Or.inr ?_))))
      rw [show (a + t.data_rows + 1 + 1) = r by omega]
      simp
    · -- a data row
      rcases List.any_eq_true.mp ((dataSeg_any_val (a + 1 + 1) 1 t.total_cols t.data r 1).mpr
          ⟨by omega, by rw [hlen]; omega, by omega, by omega⟩) with ⟨w, hw, hv⟩
      refine ⟨w, ?_, isValAt_isInk hv, isValAt_row hv⟩
      simp only [List.mem_append]
      exact Or.inl (Or.inl (Or.inl (Or.inl (Or.inl (Or.inr hw)))))

theorem patternBlock_inked (title : String) (s : PatternStruct) (a c0 : Nat)
    (hlen : s.data.length = s.row_count) (h1 : 1 ≤ s.total_cols) (r : Nat) :
    rowInked (generateSinglePatternBlock title s a c0).1 r = true ↔
      a ≤ r ∧ r ≤ a + s.row_count + 2 := by
  have e1 : a + 1 + 1 + s.row_count - 1 = a + s.row_count + 1 := by omega
  rw [rowInked_iff]
  constructor
  · rintro ⟨w, hw, hink, hrow⟩
    have := patternBlock_row_bound title s a c0 hlen w hw
    omega
  · rintro ⟨hr1, hr2⟩
    simp only [generateSinglePatternBlock, ← List.append_assoc, e1]
    by_cases hra : r = a
    · subst hra
      refine ⟨Wr.val r c0 (Cell.s title), ?_, rfl, rfl⟩
      simp only [List.mem_append]
      exact Or.inl (Or.inl (Or.inl (Or.inl (Or.inl (Or.inl (by simp))))))
    by_cases hrh : r = a + 1
    · rcases List.any_eq_true.mp ((rowSeg_any_val (a + 1) c0 s.total_cols
          (fun c => Cell.s (s.headers.getD (c - c0) "")) BSty.full r c0).mpr
          ⟨hrh, by omega, by omega⟩) with ⟨w, hw, hv⟩
      refine ⟨w, ?_, isValAt_isInk hv, isValAt_row hv⟩
      simp only [List.mem_append]
      exact Or.inl (Or.inl (Or.inl (Or.inl (Or.inl (Or.inr hw)))))
    by_cases hrt : r = a + s.row_count + 2
    · refine ⟨Wr.val r c0 (Cell.s "合计"), ?_, rfl, rfl⟩
      simp only [List.mem_append]
      refine Or.inl (Or.inl (Or.inl (Or.inr ?_)))
      rw [show (a + s.row_count + 1 + 1) = r by omega]
      simp
    · rcases List.any_eq_true.mp ((dataSeg_any_val (a + 1 + 1) c0 s.total_cols s.data r c0).mpr
          ⟨by omega, by rw [hlen]; omega, by omega, by omega⟩) with ⟨w, hw, hv⟩
      refine ⟨w, ?_, isValAt_isInk hv, isValAt_row hv⟩
      simp only [List.mem_append]
      exact Or.inl (Or.inl (Or.inl (Or.inl (Or.inr hw))))

/-! ### Membership of placed tables -/

theorem genTypeSheet_fst_mem (ts : List TypeTable) (cur : Nat) :
    ∀ p ∈ (genTypeSheet ts cur).2, p.1 ∈ ts := by
  induction ts generalizing cur with
  | nil => intro p hp; simp [genTypeSheet] at hp
  | cons t rest ih =>
      intro p hp
      simp only [genTypeSheet] at hp
      rcases List.mem_cons.mp hp with rfl | hp
      · simp
      · exact List.mem_cons.mpr (Or.inr (ih _ p hp))

theorem packGroup_fst_mem :
    ∀ (ps : List (String × PatternStruct)) (cur : Nat),
      ∀ pl ∈ (packGroup ps cur).2.1, pl.1 ∈ ps
  | [], cur => by intro pl hpl; simp [packGroup] at hpl
  | [p], cur => by
      intro pl hpl
      simp only [packGroup] at hpl
      rcases List.mem_singleton.mp hpl with rfl
      simp
  | p :: q :: rest, cur => by
      intro pl hpl
      simp only [packGroup] at hpl
      rcases List.mem_cons.mp hpl with rfl | hpl
      · simp
      rcases List.mem_cons.mp hpl with rfl | hpl
      · simp
      · have := packGroup_fst_mem rest _ pl hpl
        simp [this]

theorem packGroups_fst_mem (gs : List (List (String × PatternStruct))) (cur : Nat) :
    ∀ pl ∈ (packGroups gs cur).2.1, ∃ g ∈ gs, pl.1 ∈ g := by
  induction gs generalizing cur with
  | nil => intro pl hpl; simp [packGroups] at hpl
  | cons g rest ih =>
      intro pl hpl
      simp only [packGroups] at hpl
      rcases List.mem_append.mp hpl with hpl | hpl
      · exact ⟨g, by simp, packGroup_fst_mem g cur pl hpl⟩
      · rcases ih _ pl hpl with ⟨g2, hg2, hm⟩
        exact ⟨g2, by simp [hg2], hm⟩

theorem titledBands_struct (tn date : String) (g : List Record) :
    ∀ band ∈ titledBands tn date g, ∀ p ∈ band, ∃ g0 : List Record,
      p.2 = getPatternTableStructure g0 := by
  intro band hband p hp
  unfold titledBands at hband
  rcases List.mem_map.mp hband with ⟨band0, hband0, rfl⟩
  rcases List.mem_map.mp hp with ⟨p0, hp0, rfl⟩
  have hp0' : p0 ∈ sortPatternsByColumns ((uniqueSorted (g.map (·.pattern))).map
      (fun n => (n, getPatternTableStructure (g.filter (fun r => r.pattern == n))))) := by
    unfold groupByColumnRange at hband0
    rcases List.mem_filter.mp hband0 with ⟨hmem, _⟩
    rcases List.mem_cons.mp hmem with rfl | hmem
    · exact (List.mem_filter.mp hp0).1
    rcases List.mem_cons.mp hmem with rfl | hmem
    · exact (List.mem_filter.mp hp0).1
    · simp at hmem
  rcases List.mem_map.mp (mem_sortLe hp0') with ⟨n, _, rfl⟩
  exact ⟨g.filter (fun r => r.pattern == n), rfl⟩

/-! ### Row-total data cells -/

theorem calcTypeTable_data_total (date tname : String) (g : List Record) (j : Nat)
    (hj : j < (calcTypeTable date tname g).data_rows) :
    ∃ v : Int,
      ((calcTypeTable date tname g).data.getD j []).getD
        ((calcTypeTable date tname g).total_col_idx - 1) (Cell.s "") = Cell.n v := by
  have hphi := calcTypeTable_phi date tname g
  obtain ⟨hhl, hdl, htci, htc, hrows⟩ := hphi
  have hjlen : j < (calcTypeTable date tname g).data.length := by omega
  have hdata : (calcTypeTable date tname g).data =
      (uniqueSorted (g.map (·.color))).map
        (typeRow g (calcTypeTable date tname g).specs (calcTypeTable date tname g).total_cols) := by
    rfl
  have hjc : j < (uniqueSorted (g.map (·.color))).length := by
    rw [hdata, List.length_map] at hjlen
    exact hjlen
  rw [hdata, List.getD_eq_getElem?_getD _ j, List.getElem?_map,
    List.getElem?_eq_getElem hjc]
  simp only [Option.map_some', Option.getD_some]
  rw [show (calcTypeTable date tname g).total_col_idx - 1 =
    (calcTypeTable date tname g).specs.length + 1 by omega]
  exact ⟨_, typeRow_total_cell g _ _ _⟩

theorem getPatternTableStructure_data_total (g : List Record) (j : Nat)
    (hj : j < (getPatternTableStructure g).row_count) :
    ∃ v : Int,
      ((getPatternTableStructure g).data.getD j []).getD
        ((getPatternTableStructure g).total_col_idx - 1) (Cell.s "") = Cell.n v := by
  have hphi := getPatternTableStructure_phi g
  obtain ⟨hhl, hdl, hsc, htci, htc, hrows⟩ := hphi
  have hm : minColumns = 6 := rfl
  have hx : maxColumns = 10 := rfl
  have hjlen : j < (getPatternTableStructure g).data.length := by omega
  have hdata : (getPatternTableStructure g).data =
      (uniqueSorted (g.map (·.color))).map
        (patternRow g (getPatternTableStructure g).specs
          (getPatternTableStructure g).total_cols) := by
    rfl
  have hjc : j < (uniqueSorted (g.map (·.color))).length := by
    rw [hdata, List.length_map] at hjlen
    exact hjlen
  rw [hdata, List.getD_eq_getElem?_getD _ j, List.getElem?_map,
    List.getElem?_eq_getElem hjc]
  simp only [Option.map_some', Option.getD_some]
  apply patternRow_getD_n
  · omega
  · omega
  · omega

/-! ### Workbook-level helpers -/

theorem summaryTables_spec (recs : List Record) (date : String) :
    ∀ t ∈ (sortLe (fun a b => decide (b.2.total_cols ≤ a.2.total_cols))
        (calcTypeAggregation recs date)).map (·.2),
      ∃ tname g, t = calcTypeTable date tname g := by
  intro t ht
  rcases List.mem_map.mp ht with ⟨p, hp, rfl⟩
  rcases List.mem_map.mp (mem_sortLe hp) with ⟨tn, _, rfl⟩
  exact ⟨tn, _, rfl⟩

theorem summaryTables_phi (recs : List Record) (date : String) :
    ∀ t ∈ (sortLe (fun a b => decide (b.2.total_cols ≤ a.2.total_cols))
        (calcTypeAggregation recs date)).map (·.2), TypePhi t := by
  intro t ht
  rcases summaryTables_spec recs date t ht with ⟨tname, g, rfl⟩
  exact calcTypeTable_phi date tname g

theorem summaryTables_phi3 (recs : List Record) (date : String) :
    ∀ t ∈ (sortLe (fun a b => decide (b.2.total_cols ≤ a.2.total_cols))
        (calcTypeAggregation recs date)).map (·.2),
      t.data.length = t.data_rows ∧ t.specs.length + 2 ≤ t.total_cols ∧
        t.total_col_idx = t.specs.length + 2 := by
  intro t ht
  obtain ⟨h1, h2, h3, h4, h5⟩ := summaryTables_phi recs date t ht
  have hm : minColumns = 6 := rfl
  exact ⟨h2, by omega, h3⟩

theorem genTypeSheet_spacer_not_good (ts : List TypeTable) (cur : Nat) :
    ∀ p ∈ (genTypeSheet ts cur).2, ∀ k c', typeBlockEnd p.1 p.2 < k →
      k < typeBlockEnd p.1 p.2 + blockSpacing →
      ¬ goodCellT (genTypeSheet ts cur).2 k c' := by
  have hbs : blockSpacing = 2 := rfl
  induction ts generalizing cur with
  | nil => intro p hp; simp [genTypeSheet] at hp
  | cons t rest ih =>
      intro p hp k c' hk1 hk2 hg
      simp only [genTypeSheet] at hp hg
      have hanch := genTypeSheet_anchor_lb rest (typeBlockEnd t cur + blockSpacing)
      rcases (goodCellT_cons _ _ _ _).mp hg with ⟨hin, _⟩ | hg2
      · -- the good cell would be in the head block
        unfold inRectT typeBlockEnd at hin
        dsimp only at hin
        rcases List.mem_cons.mp hp with rfl | hp
        · unfold typeBlockEnd at hk1 hk2
          dsimp only at hk1 hk2
          omega
        · have := hanch p hp
          unfold typeBlockEnd at hk1 hk2 this
          omega
      · rcases List.mem_cons.mp hp with rfl | hp
        · -- spacer of the head block, later blocks start below it
          rcases hg2 with ⟨q, hq, hinq, _⟩
          have := hanch q hq
          unfold inRectT typeBlockEnd at hinq this
          unfold typeBlockEnd at hk1 hk2
          dsimp only at hk1 hk2
          omega
        · exact ih (typeBlockEnd t cur + blockSpacing) p hp k c' hk1 hk2 hg2

/-! ### Claim theorems -/

/-- C1: the claim says the value rendered in the row-total column of a
truncated detail table equals the sum of the color's quantities over all
sizes.  The code computes that sum but then truncates the row with
`row[:total_cols]`, dropping the total; the cell under the relabelled
"行合计" header holds the ninth size's quantity (9) instead of the full sum
(45).  This theorem evaluates the code at the failing input: one pattern
group with nine sizes s1..s9 and quantities 1..9. -/
theorem detailRowTotalTruncationBug :
    (getPatternTableStructure exRecsNine).total_cols = 10 ∧
    (getPatternTableStructure exRecsNine).total_col_idx = 10 ∧
    (getPatternTableStructure exRecsNine).headers.getD 9 "" = "行合计" ∧
    valAt (generateSinglePatternBlock "A - P - 某日" (getPatternTableStructure exRecsNine) 1 1).1
      3 10 = some (Cell.n 9) ∧
    ((exRecsNine.map (·.qty)).foldl (· + ·) 0 : Int) = 45 ∧
    Cell.n 9 ≠ Cell.n (45 : Int) :=
  ⟨by decide, by decide, by decide, by decide, by decide, by decide⟩

/-- C2 counterexample: a summary-sheet table is not clamped at
`maxColumns = 10`: nine distinct sizes give headers of length 11, so the
claim's upper bound fails on the summary sheet. -/
theorem summaryTableElevenColumns :
    (calcTypeTable "某日" "A" exRecsNine).total_cols = 11 ∧
    ¬ ((calcTypeTable "某日" "A" exRecsNine).total_cols ≤ 10) :=
  ⟨by decide, by decide⟩

/-- C2 amended: detail-sheet tables always have `6 ≤ columnCount ≤ 10` and
every data row padded/truncated to exactly `columnCount` cells; summary-sheet
tables satisfy the lower bound (`columnCount = max 6 (sizes+2)`, so it can
exceed 10) and likewise have every data row of exactly `columnCount` cells. -/
theorem columnCountBoundsAmended (g : List Record) (date tname : String) :
    (6 ≤ (getPatternTableStructure g).total_cols ∧
      (getPatternTableStructure g).total_cols ≤ 10 ∧
      (getPatternTableStructure g).headers.length = (getPatternTableStructure g).total_cols ∧
      (getPatternTableStructure g).data.all
        (fun row => row.length == (getPatternTableStructure g).total_cols) = true) ∧
    (6 ≤ (calcTypeTable date tname g).total_cols ∧
      (calcTypeTable date tname g).total_cols =
        max minColumns ((calcTypeTable date tname g).specs.length + 2) ∧
      (calcTypeTable date tname g).headers.length = (calcTypeTable date tname g).total_cols ∧
      (calcTypeTable date tname g).data.all
        (fun row => row.length == (calcTypeTable date tname g).total_cols) = true) := by
  obtain ⟨p1, p2, p3, p4, p5, p6⟩ := getPatternTableStructure_phi g
  obtain ⟨t1, t2, t3, t4, t5⟩ := calcTypeTable_phi date tname g
  have hm : minColumns = 6 := rfl
  have hx : maxColumns = 10 := rfl
  refine ⟨⟨by omega, by omega, p1, ?_⟩, ⟨by omega, t4, t1, ?_⟩⟩
  · rw [List.all_eq_true]
    intro row hrow
    exact beq_iff_eq.mpr (p6 row hrow)
  · rw [List.all_eq_true]
    intro row hrow
    exact beq_iff_eq.mpr (t5 row hrow)

/-- C3 counterexample: for the scenario records, the generated headers are not
the claimed `["颜色","S","M","行合计","",""]` (sizes sort lexicographically as
M < S), and the first data row is Blue, not Red (colors sort as Blue < Red). -/
theorem summaryScenarioMismatch :
    (calcTypeTable "某日" "A" exRecsSmall).headers ≠ ["颜色", "S", "M", "行合计", "", ""] ∧
    ((calcTypeTable "某日" "A" exRecsSmall).data.getD 0 []).getD 0 (Cell.s "") = Cell.s "Blue" :=
  ⟨by decide, by decide⟩

/-- C3 amended: the summary block for type A has headers
`["颜色","M","S","行合计","",""]` (padded to 6), data rows Blue `[0,2,2]` then
Red `[5,3,8]`, and a total row whose aggregate cells, evaluated over their
column ranges, yield 合计, 5, 5, 10. -/
theorem summaryScenarioActual :
    (calcTypeTable "某日" "A" exRecsSmall).headers = ["颜色", "M", "S", "行合计", "", ""] ∧
    (calcTypeTable "某日" "A" exRecsSmall).data =
      [[Cell.s "Blue", Cell.n 0, Cell.n 2, Cell.n 2, Cell.s "", Cell.s ""],
       [Cell.s "Red", Cell.n 5, Cell.n 3, Cell.n 8, Cell.s "", Cell.s ""]] ∧
    valAt exSmallSheet 5 1 = some (Cell.s "合计") ∧
    valAt exSmallSheet 5 2 = some (Cell.s "=SUM(B3:B4)") ∧
    valAt exSmallSheet 5 3 = some (Cell.s "=SUM(C3:C4)") ∧
    valAt exSmallSheet 5 4 = some (Cell.s "=SUM(D3:D4)") ∧
    evalSum exSmallSheet 2 3 4 = 5 ∧ evalSum exSmallSheet 3 3 4 = 5 ∧
    evalSum exSmallSheet 4 3 4 = 10 :=
  ⟨by decide, by decide, by decide, by decide, by decide, by decide, by decide, by decide,
    by decide⟩

/-- C4 counterexample: a detail table whose distinct sizes all parse as
numbers ("10", "2") still orders its size columns lexicographically
("10" before "2"), not by the numeric policy (`_sort_specs` would give
["2","10"]). -/
theorem detailIgnoresNumericSizePolicy :
    ((uniqueSorted (exRecsNum.map (·.size))).all (fun s => (pyFloat? s).isSome)) = true ∧
    sortSpecs (uniqueSorted (exRecsNum.map (·.size))) = ["2", "10"] ∧
    (getPatternTableStructure exRecsNum).specs = ["10", "2"] ∧
    (getPatternTableStructure exRecsNum).headers = ["颜色", "10", "2", "行合计", "", ""] ∧
    (getPatternTableStructure exRecsNum).specs ≠
      sortSpecs (uniqueSorted (exRecsNum.map (·.size))) :=
  ⟨by decide, by decide, by decide, by decide, by decide⟩

/-- C4 amended: only summary tables follow the global two-phase policy (size
columns numerically ascending when every distinct size parses as a float,
else lexicographic); detail tables always order size columns
lexicographically, even when every size is numeric. -/
theorem sizeOrderingPolicies (g : List Record) (date tname : String) :
    ((if (uniqueSorted (g.map (·.size))).all (fun s => (pyFloat? s).isSome) then
        chainB (fun a b => decLe (numKey a) (numKey b)) (calcTypeTable date tname g).specs
      else chainB strLe (calcTypeTable date tname g).specs) = true) ∧
    chainB strLe (getPatternTableStructure g).specs = true := by
  constructor
  · show (if (uniqueSorted (g.map (·.size))).all (fun s => (pyFloat? s).isSome) then
        chainB (fun a b => decLe (numKey a) (numKey b))
          (sortSpecs (uniqueSorted (g.map (·.size))))
      else chainB strLe (sortSpecs (uniqueSorted (g.map (·.size))))) = true
    unfold sortSpecs
    split
    · rename_i hall
      exact chainB_sortLe (fun a b => decLe_total (numKey a) (numKey b)) _
    · rename_i hall
      exact chainB_sortLe strLe_total _
  · show chainB strLe (uniqueSorted (g.map (·.size))) = true
    exact chainB_sortLe strLe_total _

/-- C5: detail-sheet pair packing follows the claimed layout: within each
band element `2i` goes to the left anchor column and element `2i+1` (when
present) to the right anchor column at the same start row, the next pair
starts at `max(leftEnd, rightEnd) + spacing`, an odd band leaves the right
slot empty with no placeholder (one placement per table), tables are sorted
ascending by column count, and the whole sheet is the band-by-band layout. -/
theorem detailPairPackingPolicy :
    (∀ ps cur, (packGroup ps cur).2.1 = claimPairLayout ps cur) ∧
    (∀ ps cur, (packGroup ps cur).2.1.length = ps.length) ∧
    (∀ ps : List (String × PatternStruct),
      chainB (fun a b => decide (a.2.total_cols ≤ b.2.total_cols))
        (sortPatternsByColumns ps) = true) ∧
    (∀ tn date g, (generateTypePatternSheet tn date g).2 =
      claimBandsLayout (titledBands tn date g) 1) ∧
    leftStartCol = 1 ∧ rightStartCol = 12 ∧ blockSpacing = 2 := by
  refine ⟨packGroup_placements_eq, packGroup_placements_length, ?_, ?_, rfl, rfl, rfl⟩
  · intro ps
    exact chainB_sortLe (fun a b => by
      rcases Nat.le_total a.2.total_cols b.2.total_cols with h | h
      · exact Or.inl (decide_eq_true h)
      · exact Or.inr (decide_eq_true h)) ps
  · intro tn date g
    show (packGroups (titledBands tn date g) 1).2.1 = _
    rw [packGroups_placements_eq]

/-- C9: when a required field (类型/图案/颜色/规格/数量) has no alias among the
dataframe's columns, `generate` surfaces the `standardize` error to its
caller before any aggregation or layout runs, and produces no workbook. -/
theorem missingFieldAbortsGeneration (df : PyDF) (date : String)
    (f : String × List String) (hf : f ∈ fieldMapping)
    (hmiss : fieldMatched df.cols f.2 = false) :
    (∃ m, generate df date = Except.error m) ∧ ∀ wb, generate df date ≠ Except.ok wb :=
  generate_error_of_missing df date f hf hmiss

/-- Witness for C9: a dataframe with no 规格 column aborts with an error. -/
theorem missingFieldAbortsGeneration_witness :
    (∃ m, generate exDfNoSize "某日" = Except.error m) ∧
      ∀ wb, generate exDfNoSize "某日" ≠ Except.ok wb :=
  missingFieldAbortsGeneration exDfNoSize "某日" ("规格", ["规格", "尺寸", "尺码"])
    (by decide) (by decide)

/-- C10: every rendered block spans exactly `rowCount + 3` consecutive rows
(title, header, one data row per distinct color, total), both for detail
blocks and summary blocks, and the detail renderer returns exactly the total
row's index `anchor + rowCount + 2` for the packer's bookkeeping. -/
theorem blockRowFootprint (g : List Record) (title : String) (a c0 : Nat)
    (date tname : String) :
    ((generateSinglePatternBlock title (getPatternTableStructure g) a c0).2 =
      a + (getPatternTableStructure g).row_count + 2) ∧
    (∀ r, rowInked (generateSinglePatternBlock title (getPatternTableStructure g) a c0).1 r
        = true ↔ a ≤ r ∧ r ≤ a + (getPatternTableStructure g).row_count + 2) ∧
    ((getPatternTableStructure g).row_count = (uniqueSorted (g.map (·.color))).length) ∧
    (∀ r, rowInked (renderTypeBlock (calcTypeTable date tname g) a) r = true ↔
      a ≤ r ∧ r ≤ a + (calcTypeTable date tname g).data_rows + 2) := by
  obtain ⟨p1, p2, p3, p4, p5, p6⟩ := getPatternTableStructure_phi g
  obtain ⟨t1, t2, t3, t4, t5⟩ := calcTypeTable_phi date tname g
  have hm : minColumns = 6 := rfl
  have hx : maxColumns = 10 := rfl
  refine ⟨patternBlock_end _ _ _ _, ?_, rfl, ?_⟩
  · intro r
    exact patternBlock_inked title _ a c0 p2 (by omega) r
  · intro r
    exact renderTypeBlock_inked _ a t2 (by omega) r

/-! ### Claim theorems (C6, C7, C8) -/

theorem claimStackLayout_fst (ts : List TypeTable) (cur : Nat) :
    (claimStackLayout ts cur).map (·.1) = ts := by
  induction ts generalizing cur with
  | nil => rfl
  | cons t rest ih => simp only [claimStackLayout, List.map_cons, ih]

/-- C6 counterexample: a cell of the merged title row other than the anchor
cell, e.g. (1,2) of the single-block summary of `exRecsOne`, lies inside the
block's rectangle yet carries no border (the code styles only the anchor cell
of the merged title row). -/
theorem titleRowCellBorderless :
    (generateOriginalTypeSheet (calcTypeAggregation exRecsOne "某日")).2 =
      [(calcTypeTable "某日" "A" exRecsOne, 1)] ∧
    inRectT (calcTypeTable "某日" "A" exRecsOne) 1 1 2 ∧
    borderAt exOneSheet 1 2 = BSty.blank :=
  ⟨by decide, by decide, by decide⟩

/-- C6 amended: on every sheet of the generated workbook, the placed blocks'
rectangles are pairwise disjoint, and a cell carries the full border exactly
when it lies inside some block's rectangle and is not a non-anchor cell of
that block's merged title row; every other cell (including the title row's
cells right of the anchor) carries no border. -/
theorem blockBorderDiscipline (recs : List Record) (date : String) :
    List.Pairwise rectDisjoint ((buildWorkbook recs date).summaryBlocks.map rectOfT) ∧
    (∀ r c, borderAt (buildWorkbook recs date).summary r c =
      if goodCellT (buildWorkbook recs date).summaryBlocks r c then BSty.full
      else BSty.blank) ∧
    ∀ d ∈ (buildWorkbook recs date).details,
      List.Pairwise rectDisjoint (d.2.2.map rectOfP) ∧
      ∀ r c, borderAt d.2.1 r c =
        if goodCellP d.2.2 r c then BSty.full else BSty.blank := by
  refine ⟨?_, ?_, ?_⟩
  · show List.Pairwise rectDisjoint (((genTypeSheet _ 1).2).map rectOfT)
    exact genTypeSheet_disjoint _ 1
  · intro r c
    exact borderAt_genTypeSheet _ 1 (summaryTables_phi3 recs date) r c
  · intro d hd
    rcases List.mem_map.mp hd with ⟨tn, _, rfl⟩
    constructor
    · show List.Pairwise rectDisjoint
        (((packGroups (titledBands tn date _) 1).2.1).map rectOfP)
      exact packGroups_disjoint _ 1 (generateTypePatternSheet_phi tn date _)
    · intro r c
      exact borderAt_generateTypePatternSheet tn date _ r c

/-- C7 counterexample: the row-total cell of a data row is a pre-computed
numeric literal, not a formula: in the C3 scenario summary, the Blue data
row's 行合计 cell (row 3, column 4) holds the number 2, and a numeric cell is
never a formula string. -/
theorem dataRowTotalLiteral :
    valAt exSmallSheet 3 4 = some (Cell.n 2) ∧
    ∀ f : String, Cell.n 2 ≠ Cell.s f :=
  ⟨by decide, fun f h => by cases h⟩

/-- C7 amended: in every rendered block (summary or detail), the total row's
size-column cells and its grand-total cell are live `=SUM` formulas over that
column's data-row range, while the per-row total cell of each data row is a
pre-computed numeric literal. -/
theorem totalCellsFormulaDiscipline (g : List Record) (date tname title : String)
    (a c0 j : Nat) :
    (∀ c, 2 ≤ c → c < 2 + (calcTypeTable date tname g).specs.length →
      valAt (renderTypeBlock (calcTypeTable date tname g) a)
          (a + (calcTypeTable date tname g).data_rows + 1 + 1) c =
        some (Cell.s (sumFormula c (a + 1 + 1)
          (a + (calcTypeTable date tname g).data_rows + 1)))) ∧
    (valAt (renderTypeBlock (calcTypeTable date tname g) a)
        (a + (calcTypeTable date tname g).data_rows + 1 + 1)
        (calcTypeTable date tname g).total_col_idx =
      some (Cell.s (sumFormula (calcTypeTable date tname g).total_col_idx (a + 1 + 1)
        (a + (calcTypeTable date tname g).data_rows + 1)))) ∧
    (j < (calcTypeTable date tname g).data_rows →
      ∃ v : Int, valAt (renderTypeBlock (calcTypeTable date tname g) a)
          (a + 1 + 1 + j) (calcTypeTable date tname g).total_col_idx = some (Cell.n v)) ∧
    (∀ c, c0 + 1 ≤ c →
      c < c0 + 1 + min (getPatternTableStructure g).spec_count
        ((getPatternTableStructure g).total_cols - 1) →
      valAt (generateSinglePatternBlock title (getPatternTableStructure g) a c0).1
          (a + (getPatternTableStructure g).row_count + 1 + 1) c =
        some (Cell.s (sumFormula c (a + 1 + 1)
          (a + (getPatternTableStructure g).row_count + 1)))) ∧
    (valAt (generateSinglePatternBlock title (getPatternTableStructure g) a c0).1
        (a + (getPatternTableStructure g).row_count + 1 + 1)
        (c0 + (getPatternTableStructure g).total_col_idx - 1) =
      some (Cell.s (sumFormula (c0 + (getPatternTableStructure g).total_col_idx - 1)
        (a + 1 + 1) (a + (getPatternTableStructure g).row_count + 1)))) ∧
    (j < (getPatternTableStructure g).row_count →
      ∃ v : Int, valAt (generateSinglePatternBlock title (getPatternTableStructure g) a c0).1
          (a + 1 + 1 + j) (c0 + (getPatternTableStructure g).total_col_idx - 1) =
        some (Cell.n v)) := by
  obtain ⟨t1, t2, t3, t4, t5⟩ := calcTypeTable_phi date tname g
  obtain ⟨p1, p2, p3, p4, p5, p6⟩ := getPatternTableStructure_phi g
  have hm : minColumns = 6 := rfl
  have hx : maxColumns = 10 := rfl
  have h6 : 6 ≤ (getPatternTableStructure g).total_cols := by omega
  refine ⟨?_, ?_, ?_, ?_, ?_, ?_⟩
  · intro c hc1 hc2
    rw [valAt_renderTypeBlock _ a _ _ t2 t3]
    rw [if_neg (by omega), if_neg (by omega), if_neg (by omega), if_neg (by omega),
      if_pos ⟨rfl, hc1, hc2⟩]
  · rw [valAt_renderTypeBlock _ a _ _ t2 t3]
    rw [if_neg (by omega), if_neg (by omega), if_neg (by omega), if_neg (by omega),
      if_neg (by omega), if_pos ⟨rfl, rfl⟩]
  · intro hj
    rw [valAt_renderTypeBlock _ a _ _ t2 t3]
    rw [if_neg (by omega), if_neg (by omega),
      if_pos ⟨by omega, by omega, by omega, by omega⟩]
    rw [show a + 1 + 1 + j - (a + 1 + 1) = j from by omega]
    rcases calcTypeTable_data_total date tname g j (by omega) with ⟨v, hv⟩
    exact ⟨v, by rw [hv]⟩
  · intro c hc1 hc2
    rw [valAt_patternBlock title _ a c0 _ _ p2 p4 h6]
    rw [if_neg (by omega), if_neg (by omega), if_neg (by omega), if_neg (by omega)]
    by_cases hc5 : c = c0 + (getPatternTableStructure g).total_col_idx - 1
    · rw [if_pos ⟨rfl, hc5⟩, hc5]
    · rw [if_neg (fun h => hc5 h.2), if_pos ⟨rfl, hc1, hc2⟩]
  · rw [valAt_patternBlock title _ a c0 _ _ p2 p4 h6]
    rw [if_neg (by omega), if_neg (by omega), if_neg (by omega), if_neg (by omega),
      if_pos ⟨rfl, rfl⟩]
  · intro hj
    rw [valAt_patternBlock title _ a c0 _ _ p2 p4 h6]
    rw [if_neg (by omega), if_neg (by omega),
      if_pos ⟨by omega, by omega, by omega, by omega⟩]
    rw [show a + 1 + 1 + j - (a + 1 + 1) = j from by omega,
      show c0 + (getPatternTableStructure g).total_col_idx - 1 - c0 =
        (getPatternTableStructure g).total_col_idx - 1 from by omega]
    rcases getPatternTableStructure_data_total g j (by omega) with ⟨v, hv⟩
    exact ⟨v, by rw [hv]⟩

/-- C8: the summary sheet's per-type blocks are sorted descending by column
count, stacked top-to-bottom with every block anchored at the fixed left
column 1 (its title cell sits in column 1 of its anchor row), each next block
starting `blockSpacing = 2` rows after the previous block's total row, and
the border is suppressed across the full width of the spacer rows strictly
between consecutive blocks. -/
theorem summaryStackingPolicy (recs : List Record) (date : String) :
    (chainB (fun a b => decide (b.1.total_cols ≤ a.1.total_cols))
      (buildWorkbook recs date).summaryBlocks = true) ∧
    (buildWorkbook recs date).summaryBlocks =
      claimStackLayout ((sortLe (fun a b => decide (b.2.total_cols ≤ a.2.total_cols))
        (calcTypeAggregation recs date)).map (·.2)) 1 ∧
    blockSpacing = 2 ∧
    (∀ p ∈ (buildWorkbook recs date).summaryBlocks,
      valAt (buildWorkbook recs date).summary p.2 1 = some (Cell.s p.1.title)) ∧
    (∀ p ∈ (buildWorkbook recs date).summaryBlocks, ∀ k c,
      typeBlockEnd p.1 p.2 < k → k < typeBlockEnd p.1 p.2 + blockSpacing →
      borderAt (buildWorkbook recs date).summary k c = BSty.blank) := by
  have hblocks : (buildWorkbook recs date).summaryBlocks =
      (genTypeSheet ((sortLe (fun a b => decide (b.2.total_cols ≤ a.2.total_cols))
        (calcTypeAggregation recs date)).map (·.2)) 1).2 := rfl
  have hsheet : (buildWorkbook recs date).summary =
      (genTypeSheet ((sortLe (fun a b => decide (b.2.total_cols ≤ a.2.total_cols))
        (calcTypeAggregation recs date)).map (·.2)) 1).1 := rfl
  refine ⟨?_, ?_, rfl, ?_, ?_⟩
  · rw [hblocks, genTypeSheet_placements_eq]
    have h1 : chainB (fun a b => decide (b.2.total_cols ≤ a.2.total_cols))
        (sortLe (fun a b => decide (b.2.total_cols ≤ a.2.total_cols))
          (calcTypeAggregation recs date)) = true :=
      chainB_sortLe (fun a b => by
        rcases Nat.le_total a.2.total_cols b.2.total_cols with h | h
        · exact Or.inr (decide_eq_true h)
        · exact Or.inl (decide_eq_true h)) _
    have h2 : chainB (fun a b : TypeTable => decide (b.total_cols ≤ a.total_cols))
        ((sortLe (fun a b => decide (b.2.total_cols ≤ a.2.total_cols))
          (calcTypeAggregation recs date)).map (·.2)) = true :=
      (chainB_map (fun p : String × TypeTable => p.2)
        (fun a b : TypeTable => decide (b.total_cols ≤ a.total_cols)) _).symm.trans h1
    exact (chainB_map (fun p : TypeTable × Nat => p.1)
      (fun a b : TypeTable => decide (b.total_cols ≤ a.total_cols)) _).trans
      (by rw [claimStackLayout_fst]; exact h2)
  · rw [hblocks, genTypeSheet_placements_eq]
  · intro p hp
    rw [hblocks] at hp
    rw [hsheet]
    have hmem := genTypeSheet_fst_mem _ 1 p hp
    obtain ⟨hlen, hsc, htci⟩ := summaryTables_phi3 recs date p.1 hmem
    rw [valAt_genTypeSheet_mem _ 1
      (fun t ht => (summaryTables_phi3 recs date t ht).1) p hp p.2 1 (le_refl _) (by omega)]
    rw [valAt_renderTypeBlock _ _ _ _ hlen htci, if_pos ⟨rfl, rfl⟩]
  · intro p hp k c hk1 hk2
    rw [hblocks] at hp
    rw [hsheet, borderAt_genTypeSheet _ 1 (summaryTables_phi3 recs date) k c,
      if_neg (genTypeSheet_spacer_not_good _ 1 p hp k c hk1 hk2)]
